import Mathlib

/-!
Verification of the send-orchestration kernel of the quote-request mail skill.

The definitions below are shallow embeddings of the Python sources under
`05_mail/scripts/`: pure helpers (`audit_logger.py` masking, `main.py` key
derivation and URL canonicalization) become Lean functions on `String` /
`List Char`, and the stateful ledger (`send_ledger.py`) together with the
per-recipient orchestration loop of `QuoteRequestSkill.send_bulk`
(`main.py`) becomes an explicit state-passing machine.  Timestamps are
modelled as natural numbers (seconds); the email transport, which the spec
treats as an external capability, is modelled as an oracle supplying the
transport's responses.
-/

set_option maxRecDepth 4000

namespace SendKernel

/-! ## Character classes of the conservative email regex

`audit_logger.py` and `main.py` both use the pattern
`([A-Za-z0-9._%+-]+@[A-Za-z0-9.-]+\.[A-Za-z]{2,})`. -/

/-- Class `[A-Za-z0-9._%+-]` (local part of the email pattern). -/
def isEmailLocalChar (c : Char) : Bool :=
  c.isAlpha || c.isDigit || c = '.' || c = '_' || c = '%' || c = '+' || c = '-'

/-- Class `[A-Za-z0-9.-]` (domain body of the email pattern). -/
def isEmailDomainChar (c : Char) : Bool :=
  c.isAlpha || c.isDigit || c = '.' || c = '-'

/-- Attempt, at index `j` of the maximal `[A-Za-z0-9.-]` run `bRun`, the
regex tail `\.[A-Za-z]{2,}`: the char at `j` must be a dot followed by a
greedy run of at least two letters.  Returns the matched domain text. -/
def domTailAt (bRun : List Char) (j : Nat) : Option (List Char) :=
  if 1 ≤ j && j < bRun.length && bRun.getD j ' ' = '.' then
    let tl := (bRun.drop (j + 1)).takeWhile Char.isAlpha
    if 2 ≤ tl.length then some (bRun.take j ++ '.' :: tl) else none
  else none

/-- Backtracking of the greedy `[A-Za-z0-9.-]+` over `\.[A-Za-z]{2,}`:
try the largest dot position first, exactly as Python's regex engine
gives back characters from the longest `[B]+` match. -/
def domBacktrack (bRun : List Char) : Nat → Option (List Char)
  | 0 => none
  | j + 1 =>
    match domTailAt bRun (j + 1) with
    | some m => some m
    | none => domBacktrack bRun j

/-- Match of the domain part `[A-Za-z0-9.-]+\.[A-Za-z]{2,}` at the head of
`cs`, following Python's leftmost greedy-with-backtracking semantics. -/
def matchEmailDomain (cs : List Char) : Option (List Char) :=
  let bRun := cs.takeWhile isEmailDomainChar
  domBacktrack bRun (bRun.length - 1)

/-- Match of the full email pattern anchored at the head of `cs`.
Returns `(localPart, domainPart, remainder)`.  The greedy `[A]+` cannot
backtrack usefully (giving a char back leaves an `[A]`-class char where
`@` is required), so it always takes the maximal run. -/
def matchEmailAt (cs : List Char) : Option (List Char × List Char × List Char) :=
  let aRun := cs.takeWhile isEmailLocalChar
  if aRun.isEmpty then none
  else
    match cs.drop aRun.length with
    | '@' :: afterAt =>
      match matchEmailDomain afterAt with
      | some dom => some (aRun, dom, afterAt.drop dom.length)
      | none => none
    | _ => none

/-- Scanner of `AuditLogger._mask_emails_in_text`: at each position try the
email pattern; on a match emit `***@domain` (the result of
`mask_email_domain_only` on the matched text) and continue after the match,
otherwise keep the char.  `fuel` bounds recursion; `fuel ≥ length` is
always sufficient. -/
def maskScan : Nat → List Char → List Char
  | 0, cs => cs
  | _ + 1, [] => []
  | fuel + 1, c :: rest =>
    match matchEmailAt (c :: rest) with
    | some (_, dom, after) =>
      '*' :: '*' :: '*' :: '@' :: (dom ++ maskScan fuel after)
    | none => c :: maskScan fuel rest

/-- Embedding of `AuditLogger._mask_emails_in_text`. -/
def maskEmailsInText (s : String) : String :=
  String.mk (maskScan s.data.length s.data)

/-- Embedding of `AuditLogger.mask_email` (screen masking).  Python raises
`IndexError` on an empty local part (`local[0]`), modelled as `none`. -/
def maskEmail (email : String) : Option String :=
  if email.data.contains '@' then
    let localPart := email.data.takeWhile (· != '@')
    let domain := (email.data.dropWhile (· != '@')).drop 1
    if localPart.isEmpty then none
    else if localPart.length ≤ 3 then
      some (String.mk (localPart.take 1 ++ ('*' :: '*' :: '*' :: '@' :: domain)))
    else
      some (String.mk (localPart.take 3 ++ ('*' :: '*' :: '*' :: '@' :: domain)))
  else some "***"

/-- Embedding of `AuditLogger.mask_email_domain_only` (error masking). -/
def maskEmailDomainOnly (email : String) : String :=
  if email.data.contains '@' then
    String.mk ('*' :: '*' :: '*' :: '@' :: (email.data.dropWhile (· != '@')).drop 1)
  else "***"

/-- Structured error payloads handled by `AuditLogger._mask_error_details`:
dicts, lists, strings, and any other JSON-able atom (left unchanged). -/
inductive ErrValue where
  | str (s : String)
  | dict (kvs : List (String × ErrValue))
  | list (vs : List ErrValue)
  | atom

mutual

/-- Embedding of `AuditLogger._mask_error_details`: recursive email masking
inside structured error payloads. -/
def maskErrorDetails : ErrValue → ErrValue
  | .str s => .str (maskEmailsInText s)
  | .dict kvs => .dict (maskErrorKvs kvs)
  | .list vs => .list (maskErrorList vs)
  | .atom => .atom

/-- Value-wise recursion of `_mask_error_details` over dict entries. -/
def maskErrorKvs : List (String × ErrValue) → List (String × ErrValue)
  | [] => []
  | (k, v) :: rest => (k, maskErrorDetails v) :: maskErrorKvs rest

/-- Element-wise recursion of `_mask_error_details` over lists. -/
def maskErrorList : List ErrValue → List ErrValue
  | [] => []
  | v :: rest => maskErrorDetails v :: maskErrorList rest

end

/-! ## SHA-256

`main.py` and `send_ledger.py` derive every identity key through
`hashlib.sha256(payload.encode("utf-8")).hexdigest()`; the implementation
below computes the same digest on `Nat` words reduced mod `2^32`. -/

/-- All-ones 32-bit mask. -/
def mask32 : Nat := 0xffffffff

/-- Right rotation of a 32-bit word. -/
def rotr32 (n x : Nat) : Nat := ((x >>> n) ||| (x <<< (32 - n))) &&& mask32

/-- SHA-256 round constants. -/
def shaK : List Nat :=
  [1116352408, 1899447441, 3049323471, 3921009573, 961987163, 1508970993,
   2453635748, 2870763221, 3624381080, 310598401, 607225278, 1426881987,
   1925078388, 2162078206, 2614888103, 3248222580, 3835390401, 4022224774,
   264347078, 604807628, 770255983, 1249150122, 1555081692, 1996064986,
   2554220882, 2821834349, 2952996808, 3210313671, 3336571891, 3584528711,
   113926993, 338241895, 666307205, 773529912, 1294757372, 1396182291,
   1695183700, 1986661051, 2177026350, 2456956037, 2730485921, 2820302411,
   3259730800, 3345764771, 3516065817, 3600352804, 4094571909, 275423344,
   430227734, 506948616, 659060556, 883997877, 958139571, 1322822218,
   1537002063, 1747873779, 1955562222, 2024104815, 2227730452, 2361852424,
   2428436474, 2756734187, 3204031479, 3329325298]

/-- SHA-256 initial state. -/
def shaInit : List Nat :=
  [1779033703, 3144134277, 1013904242, 2773480762,
   1359893119, 2600822924, 528734635, 1541459225]

/-- UTF-8 encoding of one code point (`str.encode("utf-8")` per char). -/
def utf8Bytes (c : Char) : List Nat :=
  let n := c.toNat
  if n < 0x80 then [n]
  else if n < 0x800 then [0xc0 ||| (n >>> 6), 0x80 ||| (n &&& 0x3f)]
  else if n < 0x10000 then
    [0xe0 ||| (n >>> 12), 0x80 ||| ((n >>> 6) &&& 0x3f), 0x80 ||| (n &&& 0x3f)]
  else
    [0xf0 ||| (n >>> 18), 0x80 ||| ((n >>> 12) &&& 0x3f),
     0x80 ||| ((n >>> 6) &&& 0x3f), 0x80 ||| (n &&& 0x3f)]

/-- UTF-8 byte sequence of a string. -/
def strUtf8 (s : String) : List Nat := s.data.flatMap utf8Bytes

/-- SHA-256 padding: `0x80`, zeros, then the 64-bit big-endian bit length. -/
def shaPad (msg : List Nat) : List Nat :=
  let bitLen := msg.length * 8
  let padZeros := (64 - ((msg.length + 9) % 64)) % 64
  msg ++ 0x80 :: List.replicate padZeros 0 ++
    [(bitLen >>> 56) &&& 0xff, (bitLen >>> 48) &&& 0xff, (bitLen >>> 40) &&& 0xff,
     (bitLen >>> 32) &&& 0xff, (bitLen >>> 24) &&& 0xff, (bitLen >>> 16) &&& 0xff,
     (bitLen >>> 8) &&& 0xff, bitLen &&& 0xff]

/-- Big-endian 32-bit words of a byte list. -/
def bytesToWords : List Nat → List Nat
  | b0 :: b1 :: b2 :: b3 :: rest =>
    ((b0 <<< 24) ||| (b1 <<< 16) ||| (b2 <<< 8) ||| b3) :: bytesToWords rest
  | _ => []

/-- SHA-256 message-schedule sigma-0. -/
def smallSigma0 (x : Nat) : Nat := (rotr32 7 x) ^^^ (rotr32 18 x) ^^^ (x >>> 3)

/-- SHA-256 message-schedule sigma-1. -/
def smallSigma1 (x : Nat) : Nat := (rotr32 17 x) ^^^ (rotr32 19 x) ^^^ (x >>> 10)

/-- SHA-256 compression Sigma-0. -/
def bigSigma0 (x : Nat) : Nat := (rotr32 2 x) ^^^ (rotr32 13 x) ^^^ (rotr32 22 x)

/-- SHA-256 compression Sigma-1. -/
def bigSigma1 (x : Nat) : Nat := (rotr32 6 x) ^^^ (rotr32 11 x) ^^^ (rotr32 25 x)

/-- Extension of the 16-word schedule to 64 words (`n` extra words). -/
def extendSchedule (w : Array Nat) : Nat → Array Nat
  | 0 => w
  | n + 1 =>
    let w := extendSchedule w n
    let i := 16 + n
    let nw := (smallSigma1 (w.getD (i - 2) 0) + w.getD (i - 7) 0 +
      smallSigma0 (w.getD (i - 15) 0) + w.getD (i - 16) 0) &&& mask32
    w.push nw

/-- One SHA-256 compression round applied to the 8-word working state. -/
def compressRound (w : Array Nat) (st : List Nat) (i : Nat) : List Nat :=
  match st with
  | [a, b, c, d, e, f, g, h] =>
    let ch := (e &&& f) ^^^ ((e ^^^ mask32) &&& g)
    let t1 := (h + bigSigma1 e + ch + shaK.getD i 0 + w.getD i 0) &&& mask32
    let maj := (a &&& b) ^^^ (a &&& c) ^^^ (b &&& c)
    let t2 := (bigSigma0 a + maj) &&& mask32
    [(t1 + t2) &&& mask32, a, b, c, (d + t1) &&& mask32, e, f, g]
  | st => st

/-- The first `n` compression rounds. -/
def compressRounds (w : Array Nat) (st : List Nat) : Nat → List Nat
  | 0 => st
  | n + 1 => compressRound w (compressRounds w st n) n

/-- Word-wise addition of two hash states mod `2^32`. -/
def addStates (a b : List Nat) : List Nat :=
  (a.zip b).map (fun p => (p.1 + p.2) &&& mask32)

/-- Block loop of SHA-256 over a padded byte sequence; `fuel` is the number
of 64-byte blocks. -/
def shaBlocks : Nat → List Nat → List Nat → List Nat
  | 0, st, _ => st
  | fuel + 1, st, bytes =>
    let block := bytes.take 64
    let w := extendSchedule (bytesToWords block).toArray 48
    let st2 := addStates st (compressRounds w st 64)
    shaBlocks fuel st2 (bytes.drop 64)

/-- Lower-case hex digit. -/
def hexChar (n : Nat) : Char := if n < 10 then Char.ofNat (48 + n) else Char.ofNat (87 + n)

/-- Eight lower-case hex digits of a 32-bit word. -/
def wordHex (x : Nat) : List Char :=
  [hexChar ((x >>> 28) &&& 0xf), hexChar ((x >>> 24) &&& 0xf), hexChar ((x >>> 20) &&& 0xf),
   hexChar ((x >>> 16) &&& 0xf), hexChar ((x >>> 12) &&& 0xf), hexChar ((x >>> 8) &&& 0xf),
   hexChar ((x >>> 4) &&& 0xf), hexChar (x &&& 0xf)]

/-- Embedding of `hashlib.sha256(s.encode("utf-8")).hexdigest()`. -/
def sha256Hex (s : String) : String :=
  let padded := shaPad (strUtf8 s)
  let st := shaBlocks (padded.length / 64) shaInit padded
  String.mk (st.flatMap wordHex)

/-! ## URL canonicalization (`QuoteRequestSkill._normalize_input_url`)

The functions below embed the `urllib.parse` helpers the source composes
(`urlsplit`, `parse_qsl`, `urlencode`, `quote`, `unquote`) for the ASCII
fragment of Unicode: NFKC normalization (`unicodedata.normalize("NFKC", ...)`)
is the identity there and percent sequences are decoded byte-wise. -/

/-- Python whitespace stripped by `str.strip()` (ASCII fragment). -/
def isPySpace (c : Char) : Bool :=
  c = ' ' || c = '\t' || c = '\n' || c = '\r' || c = '\x0b' || c = '\x0c'

/-- Line-break folding of `_normalize_text`:
`replace("\r\n", "\n").replace("\r", "\n")`. -/
def foldCR : List Char → List Char
  | [] => []
  | c :: rest =>
    if c = '\r' then
      match rest with
      | '\n' :: rest2 => '\n' :: foldCR rest2
      | [] => ['\n']
      | c2 :: rest2 => '\n' :: foldCR (c2 :: rest2)
    else c :: foldCR rest

/-- Embedding of `str.strip()`. -/
def pyStrip (cs : List Char) : List Char :=
  ((cs.dropWhile isPySpace).reverse.dropWhile isPySpace).reverse

/-- Embedding of `QuoteRequestSkill._normalize_text` (NFKC is the identity
on the ASCII strings modelled here). -/
def normalizeText (s : String) : String :=
  String.mk (pyStrip (foldCR s.data))

/-- Scheme characters accepted by `urllib.parse.urlsplit`. -/
def isSchemeChar (c : Char) : Bool :=
  c.isAlpha || c.isDigit || c = '+' || c = '-' || c = '.'

/-- Scheme parsing of `urlsplit`: the text before the first `:` is the
scheme when it starts with a letter and uses only scheme characters; the
scheme is returned lower-cased. -/
def splitScheme (cs : List Char) : List Char × List Char :=
  let pre := cs.takeWhile (· != ':')
  if pre.length < cs.length && !pre.isEmpty &&
      (match pre.head? with | some c => c.isAlpha | none => false) &&
      pre.all isSchemeChar then
    (pre.map Char.toLower, cs.drop (pre.length + 1))
  else ([], cs)

/-- Netloc terminators of `urlsplit._splitnetloc`. -/
def isNetlocEnd (c : Char) : Bool := c = '/' || c = '?' || c = '#'

/-- Netloc parsing of `urlsplit`: after a leading `//`, up to `/`, `?` or `#`. -/
def splitNetloc (cs : List Char) : List Char × List Char :=
  match cs with
  | '/' :: '/' :: rest =>
    (rest.takeWhile (fun c => !isNetlocEnd c), rest.dropWhile (fun c => !isNetlocEnd c))
  | _ => ([], cs)

/-- Text before and optionally after the first occurrence of `sep`
(`str.split(sep, 1)`). -/
def splitOnFirst (sep : Char) (cs : List Char) : List Char × Option (List Char) :=
  let pre := cs.takeWhile (· != sep)
  if pre.length = cs.length then (cs, none) else (pre, some (cs.drop (pre.length + 1)))

/-- Result of `urllib.parse.urlsplit` (fragment dropped by the caller). -/
structure SplitUrl where
  scheme : List Char
  netloc : List Char
  path : List Char
  query : List Char
  fragment : List Char

/-- Embedding of `urllib.parse.urlsplit`: scheme, then `//netloc`, then the
fragment split, then the query split. -/
def pyUrlsplit (cs : List Char) : SplitUrl :=
  let (scheme, rest) := splitScheme cs
  let (netloc, rest) := splitNetloc rest
  let (rest, fragment) := splitOnFirst '#' rest
  let (path, query) := splitOnFirst '?' rest
  { scheme := scheme, netloc := netloc, path := path,
    query := query.getD [], fragment := fragment.getD [] }

/-- Value of a hex digit. -/
def hexVal (c : Char) : Option Nat :=
  if '0' ≤ c && c ≤ '9' then some (c.toNat - 48)
  else if 'a' ≤ c && c ≤ 'f' then some (c.toNat - 87)
  else if 'A' ≤ c && c ≤ 'F' then some (c.toNat - 55)
  else none

/-- Embedding of `urllib.parse.unquote` on the single-byte fragment: valid
`%hh` sequences are decoded, malformed ones kept verbatim. -/
def pyUnquote : List Char → List Char
  | [] => []
  | c :: rest =>
    if c = '%' then
      match rest with
      | a :: b :: rest2 =>
        match hexVal a, hexVal b with
        | some x, some y => Char.ofNat (16 * x + y) :: pyUnquote rest2
        | _, _ => '%' :: pyUnquote (a :: b :: rest2)
      | [a] => '%' :: pyUnquote [a]
      | [] => ['%']
    else c :: pyUnquote rest

/-- Characters `urllib.parse.quote` never escapes (`_ALWAYS_SAFE`). -/
def alwaysSafe (c : Char) : Bool :=
  c.isAlpha || c.isDigit || c = '_' || c = '.' || c = '-' || c = '~'

/-- Upper-case hex digit (percent escapes use upper case). -/
def hexCharUpper (n : Nat) : Char :=
  if n < 10 then Char.ofNat (48 + n) else Char.ofNat (55 + n)

/-- Percent escape of one byte. -/
def pctHex (n : Nat) : List Char := ['%', hexCharUpper (n >>> 4), hexCharUpper (n &&& 0xf)]

/-- Embedding of `urllib.parse.quote(s, safe)`: safe and always-safe chars
kept, others UTF-8 encoded and percent-escaped. -/
def pyQuote (safe : List Char) (cs : List Char) : List Char :=
  cs.flatMap (fun c =>
    if alwaysSafe c || safe.contains c then [c] else (utf8Bytes c).flatMap pctHex)

/-- The `safe` set `"/:@-._~!$&'()*+,;="` passed to `quote` for the path
(apostrophe written via its code point). -/
def pathSafe : List Char :=
  ['/', ':', '@', '-', '.', '_', '~', '!', '$', '&', Char.ofNat 39,
   '(', ')', '*', '+', ',', ';', '=']

/-- Embedding of `urllib.parse.quote_plus(s, safe="")` used by `urlencode`. -/
def quotePlus (cs : List Char) : List Char :=
  cs.flatMap (fun c =>
    if c = ' ' then ['+']
    else if alwaysSafe c then [c] else (utf8Bytes c).flatMap pctHex)

/-- Byte decoding of one query token: `+` to space, then percent-decode. -/
def plusDecode (cs : List Char) : List Char :=
  pyUnquote (cs.map (fun c => if c = '+' then ' ' else c))

/-- Handling of one `name=value` chunk of `parse_qsl(..., keep_blank_values=True)`:
empty chunks dropped, the chunk split on the first `=` (missing value kept
blank), both sides decoded. -/
def parseQslChunk (chunk : List Char) : Option (List Char × List Char) :=
  if chunk.isEmpty then none
  else
    match splitOnFirst '=' chunk with
    | (name, none) => some (plusDecode name, plusDecode [])
    | (name, some value) => some (plusDecode name, plusDecode value)

/-- Embedding of `urllib.parse.parse_qsl(qs, keep_blank_values=True)`:
chunks split on `&`, each handled by `parseQslChunk`. -/
def parseQsl (q : List Char) : List (List Char × List Char) :=
  (q.splitOn '&').filterMap parseQslChunk

/-- Embedding of `urllib.parse.urlencode(pairs, doseq=True)` on string
pairs: `quote_plus` each side, join `k=v` chunks with `&`. -/
def urlencodePairs (ps : List (List Char × List Char)) : List Char :=
  List.intercalate ['&'] (ps.map (fun p => quotePlus p.1 ++ '=' :: quotePlus p.2))

/-- Embedding of `urllib.parse.urlunsplit` for an empty fragment. -/
def pyUrlunsplit (scheme netloc path query : List Char) : List Char :=
  let url := path
  let url :=
    if !netloc.isEmpty || url.take 2 = ['/', '/'] then
      let url := if !url.isEmpty && url.head? != some '/' then '/' :: url else url
      '/' :: '/' :: (netloc ++ url)
    else url
  let url := if !scheme.isEmpty then scheme ++ ':' :: url else url
  if !query.isEmpty then url ++ '?' :: query else url

/-- Tracking query keys dropped by `_is_tracking_query_key`. -/
def trackingQueryKeys : List (List Char) :=
  [['g','c','l','i','d'], ['f','b','c','l','i','d'], ['m','s','c','l','k','i','d'],
   ['m','c','_','c','i','d'], ['m','c','_','e','i','d'], ['_','g','a'], ['_','g','l'],
   ['y','c','l','i','d']]

/-- Embedding of `QuoteRequestSkill._is_tracking_query_key`. -/
def isTrackingQueryKey (k : List Char) : Bool :=
  let kl := (pyStrip k).map Char.toLower
  trackingQueryKeys.contains kl || (['u','t','m','_'].isPrefixOf kl)

/-- Lexicographic sort key used by `filtered.sort(key=lambda pair: (pair[0], pair[1]))`:
Python tuple comparison on code-point string order. -/
def pairKeyLe (p q : List Char × List Char) : Prop :=
  p.1 < q.1 ∨ (p.1 = q.1 ∧ p.2 ≤ q.2)

instance : DecidableRel pairKeyLe := fun p q => by
  unfold pairKeyLe
  infer_instance

/-- Sorting of the filtered pairs.  Python's `list.sort` is a stable merge
sort; since `pairKeyLe` is total and antisymmetric the sorted list is
unique, so insertion sort computes the same result. -/
def sortPairs (ps : List (List Char × List Char)) : List (List Char × List Char) :=
  List.insertionSort pairKeyLe ps

/-- Default port for a (lower-cased) scheme, per `_normalize_input_url`:
`443` for https, `80` for http. -/
def isDefaultPort (schemeL p : List Char) : Bool :=
  (schemeL = ['h','t','t','p','s'] && p = ['4','4','3']) ||
  (schemeL = ['h','t','t','p'] && p = ['8','0'])

/-- Default-port stripping of `_normalize_input_url`: `rsplit(":", 1)`,
drop `:443` for https and `:80` for http. -/
def stripDefaultPort (scheme netloc : List Char) : List Char :=
  if netloc.contains ':' then
    let revPort := netloc.reverse.takeWhile (· != ':')
    let host := netloc.take (netloc.length - revPort.length - 1)
    let port := revPort.reverse
    if isDefaultPort scheme port then host else netloc
  else netloc

/-- Embedding of `QuoteRequestSkill._normalize_input_url`. -/
def normalizeInputUrl (url : String) : String :=
  let raw := normalizeText url
  if raw.data.isEmpty then ""
  else
    let parts := pyUrlsplit raw.data
    let scheme := parts.scheme.map Char.toLower
    let netloc0 := pyStrip (parts.netloc.map Char.toLower)
    let netloc := stripDefaultPort scheme netloc0
    let path0 := if parts.path.isEmpty then ['/'] else parts.path
    let path := pyQuote pathSafe (pyUnquote path0)
    let filtered := (parseQsl parts.query).filter (fun p => !isTrackingQueryKey p.1)
    let queryStr := urlencodePairs (sortPairs filtered)
    String.mk (pyUrlunsplit scheme netloc path queryStr)

/-! ## Key derivation (`main.py`) -/

/-- Embedding of `QuoteRequestSkill._build_request_key`: the payload joins
the four normalized identity inputs with newlines. -/
def requestKeyPayload (emailNorm makerCodeNorm canonicalUrl quantityNorm : String) : String :=
  emailNorm ++ "\n" ++ makerCodeNorm ++ "\n" ++ canonicalUrl ++ "\n" ++ quantityNorm

/-- Embedding of `QuoteRequestSkill._build_request_key`. -/
def buildRequestKey (emailNorm makerCodeNorm canonicalUrl quantityNorm keyVersion : String) :
    String :=
  "rq:" ++ keyVersion ++ ":" ++
    sha256Hex (requestKeyPayload emailNorm makerCodeNorm canonicalUrl quantityNorm)

/-- Embedding of `QuoteRequestSkill._build_legacy_v1_key`
(`email.strip().lower() + ":" + sha256(subject + "\n" + template)`),
with `str.lower()` on the ASCII fragment. -/
def buildLegacyV1Key (email subject templateContent : String) : String :=
  String.mk ((pyStrip email.data).map Char.toLower) ++ ":" ++
    sha256Hex (subject ++ "\n" ++ templateContent)

/-! ## Structured URL inputs for the key-stability theorem

`buildUrlData` serializes explicit components into the URL string handed to
`_normalize_input_url`; `wfUrl` restricts them to unambiguous characters so
the serialization parses back to the same components. -/

/-- Host characters for well-formed inputs. -/
def hostOkChar (c : Char) : Bool := c.isAlpha || c.isDigit || c = '.' || c = '-'

/-- Path characters for well-formed inputs: kept verbatim by
`quote(unquote(path), safe=...)` and free of `%`, `?` and `#`. -/
def pathOkChar (c : Char) : Bool := alwaysSafe c || pathSafe.contains c

/-- URL components used as inputs to the key-stability theorem. -/
structure UrlInput where
  scheme : List Char
  host : List Char
  port : Option (List Char)
  path : List Char
  pairs : List (List Char × List Char)

/-- Serialized `:port` suffix. -/
def portPart : Option (List Char) → List Char
  | none => []
  | some p => ':' :: p

/-- Serialized query string `k1=v1&k2=v2&...`. -/
def buildQuery (ps : List (List Char × List Char)) : List Char :=
  List.intercalate ['&'] (ps.map (fun p => p.1 ++ '=' :: p.2))

/-- Serialized URL `scheme://host[:port]path[?query]`. -/
def buildUrlData (u : UrlInput) : List Char :=
  u.scheme ++ ':' :: '/' :: '/' :: u.host ++ portPart u.port ++ u.path ++
    (if u.pairs.isEmpty then [] else '?' :: buildQuery u.pairs)

/-- Serialized URL as a string. -/
def buildUrl (u : UrlInput) : String := String.mk (buildUrlData u)

/-- Well-formedness of the components: alphabetic scheme, non-empty host of
host characters, numeric port, absolute path of safe path characters, and
query keys/values over the always-safe alphabet. -/
def wfUrl (u : UrlInput) : Bool :=
  !u.scheme.isEmpty && u.scheme.all Char.isAlpha &&
  !u.host.isEmpty && u.host.all hostOkChar &&
  (match u.port with | some p => !p.isEmpty && p.all Char.isDigit | none => true) &&
  u.path.head? == some '/' && u.path.all pathOkChar &&
  u.pairs.all (fun pr => pr.1.all alwaysSafe && pr.2.all alwaysSafe)

/-- Port after default-port stripping. -/
def portNorm (u : UrlInput) : Option (List Char) :=
  match u.port with
  | none => none
  | some p => if isDefaultPort (u.scheme.map Char.toLower) p then none else some p

/-- Canonical netloc of the components. -/
def canonicalNetloc (u : UrlInput) : List Char :=
  u.host.map Char.toLower ++ portPart (portNorm u)

/-- Canonical query of the components: tracking keys dropped, pairs sorted,
re-encoded. -/
def canonicalQuery (u : UrlInput) : List Char :=
  urlencodePairs (sortPairs (u.pairs.filter (fun p => !isTrackingQueryKey p.1)))

/-- Canonical URL of the components, the value `_normalize_input_url`
computes on `buildUrl`. -/
def canonicalOfParts (u : UrlInput) : List Char :=
  u.scheme.map Char.toLower ++ ':' :: '/' :: '/' :: canonicalNetloc u ++ u.path ++
    (if (canonicalQuery u).isEmpty then [] else '?' :: canonicalQuery u)

/-- Cosmetic-noise relation of the claim: same scheme and host up to ASCII
case, same port up to an explicit default port, same path, and the same
non-tracking query pairs up to order and interleaved tracking pairs. -/
def urlNoise (u₁ u₂ : UrlInput) : Prop :=
  u₁.scheme.map Char.toLower = u₂.scheme.map Char.toLower ∧
  u₁.host.map Char.toLower = u₂.host.map Char.toLower ∧
  portNorm u₁ = portNorm u₂ ∧
  u₁.path = u₂.path ∧
  (u₁.pairs.filter (fun p => !isTrackingQueryKey p.1)).Perm
    (u₂.pairs.filter (fun p => !isTrackingQueryKey p.1))

/-- Concrete product URL of the sku-change scenario (`sku=1`). -/
def skuExample1 : UrlInput :=
  { scheme := ['h','t','t','p','s'], host := ['e','x','a','m','p','l','e','.','c','o','m'],
    port := none, path := ['/','i','t','e','m'],
    pairs := [(['s','k','u'], ['1']), (['q','t','y'], ['2'])] }

/-- Concrete product URL of the sku-change scenario (`sku=2`). -/
def skuExample2 : UrlInput :=
  { skuExample1 with pairs := [(['s','k','u'], ['2']), (['q','t','y'], ['2'])] }

/-- Concrete noisy variant of `skuExample1`: upper-case scheme and host,
explicit default port 443, a `utm_source` tracking parameter, and the
non-tracking query pairs reordered. -/
def noiseExample : UrlInput :=
  { scheme := ['H','T','T','P','S'], host := ['E','x','a','m','p','l','e','.','c','o','m'],
    port := some ['4','4','3'], path := ['/','i','t','e','m'],
    pairs := [(['q','t','y'], ['2']),
              (['u','t','m','_','s','o','u','r','c','e'], ['x']),
              (['s','k','u'], ['1'])] }

/-! ## Send ledger (`send_ledger.py`) -/

/-- Ledger statuses (the `STATUS_*` string constants of `send_ledger.py`). -/
inductive Status where
  | inProgress
  | sent
  | failedPreSend
  | unknownSent
  | skippedConfirmRequired
  | skippedAuto
  | skippedDuplicateInRun
deriving DecidableEq

/-- Row of the `send_events` table (the columns the deduplication logic
reads; timestamps are seconds since the epoch — ISO-8601 UTC strings
compare the same way). -/
structure Event where
  createdAt : Nat
  requestKey : String
  v1Key : String
  keyVersion : String
  runId : String
  status : Status
  messageId : String
  messageIdSource : String
  sentAt : Option Nat
deriving DecidableEq

/-- Row of the `send_locks` table (`request_key` is its primary key). -/
structure Lock where
  requestKey : String
  keyVersion : String
  runId : String
  status : Status
  expiresAt : Nat
  updatedAt : Nat
  recipientHash : String
  mailKey : String
  v1Key : String
  idempotencyToken : String
  idempotencySecretVersion : String
  subjectNorm : String
  lastMessageId : String
  lastMessageIdSource : String
  lastError : String
deriving DecidableEq

/-- Row of the `rerun_overrides` table. -/
structure Override where
  createdAt : Nat
  expiresAt : Nat
  kind : String
  targetHash : String
deriving DecidableEq

/-- Ledger database state: `events` and `locks` mirror the two tables in
insertion order, `overrides` the override table. `history` is a ghost copy
of every event ever inserted, untouched by `cleanup_on_batch_start`, used to
state invariants over whole traces. -/
structure Ledger where
  events : List Event
  locks : List Lock
  overrides : List Override
  history : List Event
deriving DecidableEq

/-- Return value of `SendLedger.reserve_send`. -/
structure ReservationResult where
  acquired : Bool
  reason : String
deriving DecidableEq

/-- Return value of `SendLedger.evaluate_override`. -/
structure OverrideDecision where
  allowed : Bool
  source : String
  trace : List String
deriving DecidableEq

def emptyLedger : Ledger := ⟨[], [], [], []⟩

/-- Embedding of `SendLedger._insert_event`: append to `send_events` (and to
the ghost history). -/
def insertEvent (st : Ledger) (e : Event) : Ledger :=
  { st with events := st.events ++ [e], history := st.history ++ [e] }

/-- `SELECT * FROM send_locks WHERE request_key = ?` (the primary key makes
the first match the only one on reachable states). -/
def findLockRow (st : Ledger) (rk : String) : Option Lock :=
  st.locks.find? (fun l => l.requestKey == rk)

/-- Embedding of `SendLedger.get_unknown_lock`. -/
def getUnknownLock (st : Ledger) (rk : String) : Option Lock :=
  st.locks.find? (fun l => l.requestKey == rk && decide (l.status = Status.unknownSent))

/-- Embedding of `SendLedger.reserve_send`: an existing row for the key is
refused with a reason read off its status and expiry (`expire > current` is
active); otherwise one IN_PROGRESS lock expiring at `now + max 60 ttl` and
one matching IN_PROGRESS event are inserted. -/
def reserveSend (st : Ledger) (rk v1k kv runId mailKey recipientHash idemTok secVer
    subjNorm : String) (ttlSec now : Nat) : Ledger × ReservationResult :=
  match findLockRow st rk with
  | some lock =>
    if lock.status = Status.inProgress then
      if now < lock.expiresAt then (st, ⟨false, "in_progress_active"⟩)
      else (st, ⟨false, "in_progress_expired"⟩)
    else if lock.status = Status.unknownSent then
      if now < lock.expiresAt then (st, ⟨false, "unknown_sent_hold_active"⟩)
      else (st, ⟨false, "unknown_sent_hold_expired"⟩)
    else (st, ⟨false, "lock_conflict"⟩)
  | none =>
    let newLock : Lock :=
      { requestKey := rk, keyVersion := kv, runId := runId, status := Status.inProgress,
        expiresAt := now + max 60 ttlSec, updatedAt := now, recipientHash := recipientHash,
        mailKey := mailKey, v1Key := v1k, idempotencyToken := idemTok,
        idempotencySecretVersion := secVer, subjectNorm := subjNorm,
        lastMessageId := "", lastMessageIdSource := "", lastError := "" }
    let ev : Event :=
      { createdAt := now, requestKey := rk, v1Key := v1k, keyVersion := kv, runId := runId,
        status := Status.inProgress, messageId := "", messageIdSource := "", sentAt := none }
    (insertEvent { st with locks := st.locks ++ [newLock] } ev, ⟨true, "acquired"⟩)

/-- Embedding of `SendLedger.heartbeat`: refresh the key's IN_PROGRESS lock
expiry to `now + max 60 ttl`. -/
def heartbeat (st : Ledger) (rk : String) (ttlSec now : Nat) : Ledger :=
  { st with locks := st.locks.map (fun l =>
      if l.requestKey == rk && decide (l.status = Status.inProgress) then
        { l with expiresAt := now + max 60 ttlSec, updatedAt := now }
      else l) }

/-- Embedding of `SendLedger.clear_unknown_lock_for_manual_override`. -/
def clearUnknownLockForManualOverride (st : Ledger) (rk : String) : Ledger :=
  { st with locks := st.locks.filter (fun l =>
      !(l.requestKey == rk && decide (l.status = Status.unknownSent))) }

/-- Embedding of `SendLedger.mark_sent`: delete the key's lock row and append
one SENT event created at the sent timestamp. -/
def markSent (st : Ledger) (rk v1k kv runId msgId msgSrc : String) (sentTs : Nat) : Ledger :=
  insertEvent { st with locks := st.locks.filter (fun l => !(l.requestKey == rk)) }
    { createdAt := sentTs, requestKey := rk, v1Key := v1k, keyVersion := kv, runId := runId,
      status := Status.sent, messageId := msgId, messageIdSource := msgSrc,
      sentAt := some sentTs }

/-- Embedding of `SendLedger.mark_failed_pre_send`. -/
def markFailedPreSend (st : Ledger) (rk v1k kv runId : String) (now : Nat) : Ledger :=
  insertEvent { st with locks := st.locks.filter (fun l => !(l.requestKey == rk)) }
    { createdAt := now, requestKey := rk, v1Key := v1k, keyVersion := kv, runId := runId,
      status := Status.failedPreSend, messageId := "", messageIdSource := "", sentAt := none }

/-- Embedding of `SendLedger.mark_unknown_sent`: upsert the key's lock row to
UNKNOWN_SENT expiring at `now + max 300 hold` carrying the transport message
id, and append one UNKNOWN_SENT event (`ON CONFLICT(request_key) DO UPDATE`
on the primary key is a replace). -/
def markUnknownSent (st : Ledger) (rk v1k kv runId mailKey recipientHash idemTok secVer
    subjNorm : String) (holdSec : Nat) (msgId msgSrc err : String) (now : Nat) : Ledger :=
  let newLock : Lock :=
    { requestKey := rk, keyVersion := kv, runId := runId, status := Status.unknownSent,
      expiresAt := now + max 300 holdSec, updatedAt := now, recipientHash := recipientHash,
      mailKey := mailKey, v1Key := v1k, idempotencyToken := idemTok,
      idempotencySecretVersion := secVer, subjectNorm := subjNorm,
      lastMessageId := msgId, lastMessageIdSource := msgSrc, lastError := err }
  insertEvent
    { st with locks := st.locks.filter (fun l => !(l.requestKey == rk)) ++ [newLock] }
    { createdAt := now, requestKey := rk, v1Key := v1k, keyVersion := kv, runId := runId,
      status := Status.unknownSent, messageId := msgId, messageIdSource := msgSrc,
      sentAt := none }

/-- Embedding of `SendLedger.mark_reconciled_sent`: a no-op without an
UNKNOWN_SENT lock for the key, else `mark_sent` with the lock's stored key
fields and the reconciled message id at the current time. -/
def markReconciledSent (st : Ledger) (rk runId msgId msgSrc : String) (now : Nat) : Ledger :=
  match getUnknownLock st rk with
  | none => st
  | some lock => markSent st rk lock.v1Key lock.keyVersion runId msgId msgSrc now

/-- Embedding of `SendLedger.mark_skipped`: append one event with the given
skip status. -/
def markSkipped (st : Ledger) (rk v1k kv runId : String) (status : Status) (now : Nat) :
    Ledger :=
  insertEvent st
    { createdAt := now, requestKey := rk, v1Key := v1k, keyVersion := kv, runId := runId,
      status := status, messageId := "", messageIdSource := "", sentAt := none }

/-- Rows matched by the `find_recent_sent` query: SENT events within the
window (timedelta of `max(1, window_hours)` hours) matching the v2 request
key or the legacy v1 key, filtered by run id when the scope is a non-empty
string (`if run_id:` in the source skips the clause for a falsy value). -/
def recentSentMatches (st : Ledger) (rk v1k : String) (windowHours : Nat)
    (runScope : Option String) (now : Nat) : List Event :=
  st.events.filter (fun e =>
    now - max 1 windowHours * 3600 ≤ e.createdAt && decide (e.status = Status.sent) &&
    (e.requestKey == rk || e.v1Key == v1k) &&
    (match runScope with | some rid => rid.isEmpty || e.runId == rid | none => true))

/-- Embedding of `SendLedger.find_recent_sent`: the most recent match
(`ORDER BY created_at_utc DESC LIMIT 1`; on equal timestamps the physically
later row is taken). -/
def findRecentSent (st : Ledger) (rk v1k : String) (windowHours : Nat)
    (runScope : Option String) (now : Nat) : Option Event :=
  (recentSentMatches st rk v1k windowHours runScope now).foldl
    (fun acc e =>
      some (match acc with
        | none => e
        | some b => if b.createdAt ≤ e.createdAt then e else b)) none

/-- Embedding of `SendLedger.is_send_blocked_precheck`. -/
def isSendBlockedPrecheck (st : Ledger) (rk v1k : String) (rerunWindowHours : Nat)
    (runScope : Option String) (now : Nat) : Bool × String :=
  if (getUnknownLock st rk).isSome then (true, "unknown_sent_hold_active")
  else if (findRecentSent st rk v1k rerunWindowHours runScope now).isSome then
    (true, "recent_sent_detected")
  else (false, "")

/-- Embedding of `SendLedger.append_entry` (legacy v1 API): `mark_sent` with
the dedupe key in both key columns, key version v1 and source
`legacy_append_entry` — no reservation, no lock interaction beyond the
delete inside `mark_sent`. -/
def appendEntry (st : Ledger) (dedupeKey msgId runId : String) (sentTs : Nat) : Ledger :=
  markSent st dedupeKey dedupeKey "v1" runId msgId "legacy_append_entry" sentTs

/-- An override row matching kind and hash that has not expired
(`expires_at_utc >= now` in the lookup query). -/
def overrideActive (st : Ledger) (kind hash : String) (now : Nat) : Bool :=
  st.overrides.any (fun o => o.kind == kind && o.targetHash == hash && now ≤ o.expiresAt)

/-- An override row matching kind and hash regardless of expiry. -/
def overrideKnown (st : Ledger) (kind hash : String) : Bool :=
  st.overrides.any (fun o => o.kind == kind && o.targetHash == hash)

/-- Embedding of `SendLedger.evaluate_override`: an active request-key
override wins, else an active recipient override, else the default. -/
def evaluateOverride (st : Ledger) (rk recipientHash : String) (now : Nat) :
    OverrideDecision :=
  if overrideActive st "request_key" rk now then
    ⟨true, "request_key",
      ["override_check:request_key=matched_active", "override_applied:request_key"]⟩
  else
    let t1 := if overrideKnown st "request_key" rk then
        "override_check:request_key=expired_or_inactive"
      else "override_check:request_key=not_found"
    if overrideActive st "recipient" recipientHash now then
      ⟨true, "recipient",
        [t1, "override_check:recipient=matched_active", "override_applied:recipient"]⟩
    else
      let t2 := if overrideKnown st "recipient" recipientHash then
          "override_check:recipient=expired_or_inactive"
        else "override_check:recipient=not_found"
      ⟨false, "default", [t1, t2, "override_applied:none"]⟩

/-- Embedding of `SendLedger.cleanup_on_batch_start` (`retention_days` is the
constructor field, clamped there to at least 1). The ghost history is kept. -/
def cleanupOnBatchStart (st : Ledger) (retentionDays rerunWindowHours unknownSentHoldSec
    now : Nat) : Ledger :=
  { st with
    events := st.events.filter (fun e => now - retentionDays * 86400 ≤ e.createdAt),
    locks := st.locks.filter (fun l =>
      !(decide (l.status = Status.inProgress) &&
        decide (l.expiresAt < now - max 24 rerunWindowHours * 3600)) &&
      !(decide (l.status = Status.unknownSent) &&
        decide (l.expiresAt < now - max unknownSentHoldSec 1800))),
    overrides := st.overrides.filter (fun o => !(decide (o.expiresAt < now))) }

/-! ## Orchestrator batch loop (`main.py` `send_bulk`) -/

/-- Per-record identity inputs of the loop body: the keys `send_bulk`
derives for the record before branching (lines 564-583 of `main.py`). -/
structure RecordInput where
  email : String
  requestKey : String
  mailKey : String
  v1Key : String
  recipientHash : String
  idempotencyToken : String
deriving DecidableEq

/-- Transport result (`SendResult` of `mail_sender.py`, the fields the
orchestrator reads). -/
structure SendOutcome where
  success : Bool
  messageId : String
  messageIdSource : String
  sentAt : Nat
deriving DecidableEq

/-- External nondeterminism for one record: the reconcile call's outcome as
(matched, method, message_id) with `none` for a raised exception (handled as
unmatched), the rerun-confirm callback's boolean (a callback exception is
handled as `false` in the source, so a boolean captures every behaviour),
the transport send outcome, and whether the `mark_sent` commit succeeds
(`false` models the exception of the UNKNOWN_SENT path). -/
structure Oracle where
  reconcile : Option (Bool × String × String)
  confirmRerun : Bool
  send : SendOutcome
  commitOk : Bool
deriving DecidableEq

/-- Batch-level configuration and context of one `send_bulk` call (config
values, the run id from the audit logger, `subject_norm`, and
`non_interactive = (confirm_rerun_callback is None)`). -/
structure BatchConfig where
  dedupeKeyVersion : String
  rerunPolicyDefault : String
  rerunScope : String
  rerunWindowHours : Nat
  inProgressTtlSec : Nat
  dedupeHeartbeatSec : Nat
  unknownSentHoldSec : Nat
  idempotencySecretVersion : String
  retentionDays : Nat
  runId : String
  nonInteractive : Bool
  subjectNorm : String
deriving DecidableEq

/-- Per-recipient entry of the `results` list (the fields the aggregation
and the claims read). -/
structure RecResult where
  email : String
  requestKey : String
  success : Bool
  skipped : Bool
  action : String
  confirmationRequired : Bool
deriving DecidableEq

/-- Loop state of one batch: the ledger, the in-run duplicate guard
(`seen_request_keys`), the ghost list of request keys whose transport send
reported success (one entry per successful delivery), and the results so
far. -/
structure StepState where
  ledger : Ledger
  seen : List String
  deliveries : List String
  results : List RecResult
deriving DecidableEq

/-- Reservation, heartbeat, transport send and ledger commit stage of one
record (`main.py` lines 701-835). -/
def stageSend (cfg : BatchConfig) (s : StepState) (r : RecordInput) (o : Oracle)
    (now : Nat) : StepState :=
  let lr := reserveSend s.ledger r.requestKey r.v1Key cfg.dedupeKeyVersion cfg.runId
    r.mailKey r.recipientHash r.idempotencyToken cfg.idempotencySecretVersion
    cfg.subjectNorm cfg.inProgressTtlSec now
  if !lr.2.acquired then
    { s with
      ledger := markSkipped lr.1 r.requestKey r.v1Key cfg.dedupeKeyVersion cfg.runId
        Status.skippedConfirmRequired now,
      results := s.results ++
        [⟨r.email, r.requestKey, false, true, "skip_lock_conflict", true⟩] }
  else
    let led := heartbeat lr.1 r.requestKey cfg.dedupeHeartbeatSec now
      if o.send.success then
        let s := { s with deliveries := s.deliveries ++ [r.requestKey] }
        if o.commitOk then
          { s with
            ledger := markSent led r.requestKey r.v1Key cfg.dedupeKeyVersion cfg.runId
              o.send.messageId o.send.messageIdSource o.send.sentAt,
            results := s.results ++ [⟨r.email, r.requestKey, true, false, "sent", false⟩] }
        else
          { s with
            ledger := markUnknownSent led r.requestKey r.v1Key cfg.dedupeKeyVersion
              cfg.runId r.mailKey r.recipientHash r.idempotencyToken
              cfg.idempotencySecretVersion cfg.subjectNorm cfg.unknownSentHoldSec
              o.send.messageId o.send.messageIdSource "sent_commit=unknown" now,
            results := s.results ++
              [⟨r.email, r.requestKey, false, false, "unknown_sent_pending", true⟩] }
      else
        { s with
          ledger := markFailedPreSend led r.requestKey r.v1Key cfg.dedupeKeyVersion
            cfg.runId now,
          results := s.results ++
            [⟨r.email, r.requestKey, false, false, "failed_pre_send", false⟩] }

/-- Rerun-guard stage (`main.py` lines 672-699) falling through to the send
stage: a recent SENT with no override skips under `auto_skip`, asks the
callback under `confirm` (and skips when it declines or under any other
policy value). -/
def stageRecent (cfg : BatchConfig) (s : StepState) (r : RecordInput) (o : Oracle)
    (now : Nat) (allowed : Bool) : StepState :=
  let runScope := if cfg.rerunScope == "same_run" then some cfg.runId else none
  let recent := findRecentSent s.ledger r.requestKey r.v1Key cfg.rerunWindowHours
    runScope now
  if recent.isSome && !allowed then
    let shouldSend := if cfg.rerunPolicyDefault == "confirm" && !cfg.nonInteractive
      then o.confirmRerun else false
    if cfg.rerunPolicyDefault == "auto_skip" || !shouldSend then
      let auto := cfg.rerunPolicyDefault == "auto_skip"
      { s with
        ledger := markSkipped s.ledger r.requestKey r.v1Key cfg.dedupeKeyVersion cfg.runId
          (if auto then Status.skippedAuto else Status.skippedConfirmRequired) now,
        results := s.results ++ [⟨r.email, r.requestKey, false, true,
          if auto then "skip_rerun_auto_skip" else "skip_rerun_confirmation_required",
          !auto⟩] }
    else stageSend cfg s r o now
  else stageSend cfg s r o now

/-- One iteration of the `send_bulk` record loop (`main.py` lines 553-835).
`now` stamps every ledger write of this record; the source takes fresh
wall-clock times during one iteration, so a single label keeps the model's
`created_at` values equal along the iteration. The UNKNOWN_SENT
manual-confirm branch of the source (lines 649-670) evaluates
`STATUS_UNKNOWN_SENT`, a name `main.py` never imports, inside its `try`; the
`NameError` is caught by `except Exception` and leaves
`should_send_unknown = False`, so an unreconciled unknown lock always skips
and `clear_unknown_lock_for_manual_override` is unreachable from
`send_bulk` — the embedding reflects that. -/
def processRecord (cfg : BatchConfig) (s : StepState) (r : RecordInput) (o : Oracle)
    (now : Nat) : StepState :=
  if s.seen.contains r.requestKey then
    { s with
      ledger := markSkipped s.ledger r.requestKey r.v1Key cfg.dedupeKeyVersion cfg.runId
        Status.skippedDuplicateInRun now,
      results := s.results ++
        [⟨r.email, r.requestKey, false, true, "skip_duplicate_in_run", false⟩] }
  else
    let s2 : StepState := { s with seen := s.seen ++ [r.requestKey] }
    let allowed := (evaluateOverride s2.ledger r.requestKey r.recipientHash now).allowed
    match getUnknownLock s2.ledger r.requestKey with
    | some _ =>
      let rec3 := match o.reconcile with
        | some t => t
        | none => (false, "", "")
      if rec3.1 then
        { s2 with
          ledger := markSkipped
            (markReconciledSent s2.ledger r.requestKey cfg.runId rec3.2.2
              (if rec3.2.1 == "" then "reconcile" else rec3.2.1) now)
            r.requestKey r.v1Key cfg.dedupeKeyVersion cfg.runId Status.skippedAuto now,
          results := s2.results ++
            [⟨r.email, r.requestKey, false, true, "skip_reconciled_sent", false⟩] }
      else
        { s2 with
          ledger := markSkipped s2.ledger r.requestKey r.v1Key cfg.dedupeKeyVersion
            cfg.runId Status.skippedConfirmRequired now,
          results := s2.results ++ [⟨r.email, r.requestKey, false, true,
            "skip_unknown_sent_confirm_required", true⟩] }
    | none => stageRecent cfg s2 r o now allowed

def runRecords (cfg : BatchConfig) : StepState → List (RecordInput × Oracle × Nat) →
    StepState
  | s, [] => s
  | s, (r, o, t) :: rest => runRecords cfg (processRecord cfg s r o t) rest

/-- Persistent state across batch executions: the ledger plus the ghost
delivery list. -/
structure World where
  ledger : Ledger
  deliveries : List String
deriving DecidableEq

def emptyWorld : World := ⟨emptyLedger, []⟩

/-- Batch-level summary (`send_bulk`'s returned dict, `main.py` lines
853-879). The running `confirmation_required_count` of the source equals
the count of result entries flagged `confirmation_required`, since every
increment appends exactly one flagged entry. -/
structure BatchReport where
  success : Bool
  results : List RecResult
  attemptedCount : Nat
  successCount : Nat
  failureCount : Nat
  confirmationRequiredCount : Nat
  exitCode : Nat
deriving DecidableEq

/-- Aggregation of the results list into the returned dict (`main.py` lines
853-879): attempted entries are the non-skipped ones, success demands zero
failures and zero pending confirmations, and exit code 3 is produced only
for a non-interactive caller with pending confirmations. -/
def reportOf (nonInteractive : Bool) (rs : List RecResult) : BatchReport :=
  let attempted := rs.filter (fun r => !r.skipped)
  let failureCount := (attempted.filter (fun r => !r.success)).length
  let confirmCount := (rs.filter (fun r => r.confirmationRequired)).length
  { success := failureCount == 0 && confirmCount == 0,
    results := rs,
    attemptedCount := attempted.length,
    successCount := (attempted.filter (fun r => r.success)).length,
    failureCount := failureCount,
    confirmationRequiredCount := confirmCount,
    exitCode := if 0 < confirmCount && nonInteractive then 3 else 0 }

/-- Embedding of one `send_bulk` call over a list of records with per-record
oracles and time labels: `cleanup_on_batch_start`, the record loop, then the
aggregation. Pre-loop validation (`max_recipients`, required fields, the
bulk confirmation callback) returns before touching the ledger and is
outside the model, as are the audit file side effects. -/
def runBatch (cfg : BatchConfig) (w : World) (items : List (RecordInput × Oracle × Nat))
    (now : Nat) : World × BatchReport :=
  let led := cleanupOnBatchStart w.ledger cfg.retentionDays cfg.rerunWindowHours
    cfg.unknownSentHoldSec now
  let s := runRecords cfg ⟨led, [], w.deliveries, []⟩ items
  (⟨s.ledger, s.deliveries⟩, reportOf cfg.nonInteractive s.results)

/-- A sequence of batch executions against one persistent ledger. -/
def runBatches : World → List (BatchConfig × List (RecordInput × Oracle × Nat) × Nat) →
    World
  | w, [] => w
  | w, (cfg, items, t) :: rest => runBatches (runBatch cfg w items t).1 rest

/-- SENT events for a request key. -/
def sentCount (evs : List Event) (rk : String) : Nat :=
  evs.countP (fun e => decide (e.status = Status.sent) && e.requestKey == rk)

/-- SENT events for a request key recorded under a run id. -/
def sentCountRun (evs : List Event) (rk runId : String) : Nat :=
  evs.countP (fun e =>
    decide (e.status = Status.sent) && e.requestKey == rk && e.runId == runId)

/-- UNKNOWN_SENT lock rows for a request key. -/
def unknownLockCount (locks : List Lock) (rk : String) : Nat :=
  locks.countP (fun l => decide (l.status = Status.unknownSent) && l.requestKey == rk)

/-- Ghost deliveries recorded for a request key. -/
def deliveryCount (ds : List String) (rk : String) : Nat :=
  ds.countP (fun k => k == rk)

/-- An IN_PROGRESS or UNKNOWN_SENT event for the request key exists in the
history. -/
def backs (hist : List Event) (rk : String) : Bool :=
  hist.any (fun p => p.requestKey == rk &&
    (decide (p.status = Status.inProgress) || decide (p.status = Status.unknownSent)))

/-- Every SENT event in the list is preceded (in list order, `seen` holding
the events before the list) by an IN_PROGRESS or UNKNOWN_SENT event for the
same request key. -/
def sentPreceded : List Event → List Event → Bool
  | _, [] => true
  | seen, e :: rest =>
    (if decide (e.status = Status.sent) then backs seen e.requestKey else true) &&
      sentPreceded (seen ++ [e]) rest

def sentPrecededOk (evs : List Event) : Bool := sentPreceded [] evs

/-! ## Transport interface facts (`mail_sender.py` vs `main.py`) -/

/-- Parameter names of `OutlookMailSender.send_mail` (`mail_sender.py` line
106). -/
def sendMailParams : List String :=
  ["self", "to", "subject", "body", "company_name", "html_body"]

/-- Keyword arguments `send_bulk` passes to `mail_sender.send_mail`
(`main.py` lines 731-738). -/
def sendBulkSendMailKwargs : List String :=
  ["to", "subject", "body", "company_name", "idempotency_token",
   "body_reconcile_marker"]

/-- Methods the `OutlookMailSender` class defines (`mail_sender.py`). -/
def outlookMailSenderMethods : List String :=
  ["__init__", "_get_outlook", "send_mail", "_wait_for_interval", "_get_message_id",
   "_get_message_id_with_source", "_poll_message_id_from_mail_item",
   "_get_message_id_from_sent_items", "_extract_message_id_from_item",
   "_extract_message_id_from_headers", "_normalize_recipients", "_recipient_matches",
   "_generate_fallback_id", "_is_retryable_error", "send_test_mail", "send_bulk",
   "check_outlook_connection"]

/-- Transport attributes the `send_bulk` loop invokes on `mail_sender`
(`main.py` lines 614 and 731). -/
def sendBulkTransportCalls : List String := ["reconcile_unknown_send", "send_mail"]

/-! ## Workflow orchestration (`workflow_service.py`) -/

/-- Inputs of `WorkflowService.execute` after mode resolution: the resolved
workflow mode test, whether a hearing input object was given, the hearing
fields the gating reads, the resolved send mode, the resolved user approval,
and the base records' addresses. -/
structure WfInput where
  workflowModeEnhanced : Bool
  hearingGiven : Bool
  recipientsChanged : Bool
  finalRecipients : List String
  userApproved : Bool
  sendMode : String
  baseEmails : List String
deriving DecidableEq

/-- Embedding of `WorkflowService._build_recipient_records` restricted to
addresses (a record is identified by its email here): each final recipient
with a non-empty normalized address resolves to the matching base record's
address — the base map keeps the last record per normalized address — or to
the normalized address itself. -/
def buildRecipientRecords (norm : String → String) (base : List String)
    (finals : List String) : List String :=
  finals.foldr (fun raw acc =>
    let e := norm raw
    if e.isEmpty then acc
    else match base.reverse.find? (fun b => norm b == e) with
      | some b => b :: acc
      | none => e :: acc) []

/-- Embedding of `WorkflowService._re_evaluate_safety`: an empty recipient
set is a blocked reason of its own; otherwise the domain-filter rejections
(the domain predicate stands for `skill.filter_by_domain`) and the ledger
precheck per record (`keys` maps a normalized address to the derived
request and v1 keys). -/
def reEvaluateSafety (led : Ledger) (domainOk : String → Bool)
    (norm : String → String) (keys : String → String × String)
    (rerunWindowHours : Nat) (runScope : Option String) (now : Nat)
    (emails : List String) : List String :=
  if emails.isEmpty then ["送信先が0件です。"]
  else
    (emails.filter (fun e => !domainOk e)).map (fun e => "ドメイン制限NG: " ++ e) ++
    (emails.filter (fun e =>
      (isSendBlockedPrecheck led (keys (norm e)).1 (keys (norm e)).2
        rerunWindowHours runScope now).1)).map (fun e => "重複送信防止NG: " ++ e)

/-- Validation reasons accumulated before the safety evaluation
(`workflow_service.py` lines 243-253). -/
def wfInitialReasons (inp : WfInput) : List String :=
  (if inp.workflowModeEnhanced && !inp.hearingGiven then
    ["workflow_mode=enhanced では hearing_input が必須です。"] else []) ++
  (if inp.recipientsChanged && inp.finalRecipients.isEmpty then
    ["recipients_changed=true では final_recipients が必須です。"] else [])

/-- The recipient addresses the final records are built from
(`workflow_service.py` lines 246-254). -/
def wfRecipientEmails (inp : WfInput) : List String :=
  if inp.recipientsChanged then
    (if inp.finalRecipients.isEmpty then [] else inp.finalRecipients)
  else inp.baseEmails

/-- The final recipient records (as addresses). -/
def wfFinalRecords (norm : String → String) (inp : WfInput) : List String :=
  buildRecipientRecords norm inp.baseEmails (wfRecipientEmails inp)

/-- The accumulated `blocked_reasons` after gating (`workflow_service.py`
lines 243-280): validation reasons, then the safety evaluation of the final
records once more under `recipients_changed`, then the unconditional safety
evaluation of the final records. -/
def wfGateReasons (inp : WfInput) (led : Ledger) (domainOk : String → Bool)
    (norm : String → String) (keys : String → String × String)
    (rerunWindowHours : Nat) (runScope : Option String) (now : Nat) : List String :=
  let safety := reEvaluateSafety led domainOk norm keys rerunWindowHours runScope now
    (wfFinalRecords norm inp)
  wfInitialReasons inp ++ (if inp.recipientsChanged then safety else []) ++ safety

/-- Parameter names of `AuditLogger.write_audit_log` (`audit_logger.py`
line 60). -/
def writeAuditLogParams : List String :=
  ["self", "input_file", "results", "product_info"]

/-- Keyword arguments `WorkflowService.execute` passes to
`audit_logger.write_audit_log` on the blocked path (`workflow_service.py`
lines 340-345; the pending, manual and draft_only paths pass the same
keywords). -/
def wfBlockedAuditKwargs : List String :=
  ["input_file", "results", "product_info", "workflow_context"]

/-- Parameter names of `QuoteRequestSkill.send_bulk` (`main.py` lines
414-428). -/
def sendBulkParams : List String :=
  ["self", "records", "subject", "template_content", "product_name",
   "product_features", "product_url", "maker_name", "maker_code", "quantity",
   "input_file", "confirm_rerun_callback", "confirm_bulk_send_callback"]

/-- Keyword arguments `WorkflowService.execute` passes to `skill.send_bulk`
on the approved auto path (`workflow_service.py` lines 360-372). -/
def wfAutoSendBulkKwargs : List String :=
  ["records", "subject", "template_content", "product_name", "product_features",
   "product_url", "maker_name", "maker_code", "quantity", "input_file",
   "workflow_context"]

/-! ## Concrete scenarios -/

/-- Batch configuration of the rerun-confirm scenario: policy `confirm`, an
interactive caller, global scope, the source's default windows. -/
def exCfgConfirm : BatchConfig :=
  { dedupeKeyVersion := "v2", rerunPolicyDefault := "confirm", rerunScope := "global",
    rerunWindowHours := 24, inProgressTtlSec := 2700, dedupeHeartbeatSec := 30,
    unknownSentHoldSec := 1800, idempotencySecretVersion := "v1", retentionDays := 90,
    runId := "run-1", nonInteractive := false, subjectNorm := "subject" }

/-- The same configuration under the default `auto_skip` policy. -/
def exCfgAuto : BatchConfig := { exCfgConfirm with rerunPolicyDefault := "auto_skip" }

/-- A single recipient record's derived keys. -/
def exRecord : RecordInput :=
  { email := "a@example.com", requestKey := "rq:v2:k1", mailKey := "mk1",
    v1Key := "v1k1", recipientHash := "rh1", idempotencyToken := "tok1" }

/-- Oracle of a clean delivery: transport succeeds, the ledger commit
succeeds, the confirm callback approves. -/
def exOracleOk : Oracle :=
  { reconcile := none, confirmRerun := true,
    send := { success := true, messageId := "MID-1", messageIdSource := "direct",
              sentAt := 1000 },
    commitOk := true }

/-- Second clean delivery at a later time. -/
def exOracleOk2 : Oracle :=
  { exOracleOk with
    send := { success := true, messageId := "MID-2", messageIdSource := "direct",
              sentAt := 5000 } }

/-- Two batch executions of the same record under the confirm policy with an
approving callback: the same skill instance keeps one `execution_id`, so
both batches run under run id `run-1`. -/
def c1Trace : World :=
  runBatches emptyWorld
    [(exCfgConfirm, [(exRecord, exOracleOk, 1000)], 900),
     (exCfgConfirm, [(exRecord, exOracleOk2, 5000)], 4900)]

/-- A live IN_PROGRESS lock row held by an earlier run. -/
def exLock : Lock :=
  { requestKey := "rq:v2:k1", keyVersion := "v2", runId := "run-0",
    status := Status.inProgress, expiresAt := 10000, updatedAt := 100,
    recipientHash := "rh1", mailKey := "mk1", v1Key := "v1k1",
    idempotencyToken := "tok0", idempotencySecretVersion := "v1",
    subjectNorm := "subject", lastMessageId := "", lastMessageIdSource := "",
    lastError := "" }

/-- World whose ledger holds that lock. -/
def lockedWorld : World := ⟨⟨[], [exLock], [], []⟩, []⟩

/-- An interactive batch against the held lock: the record is skipped with
confirmation required. -/
def c8Run : World × BatchReport :=
  runBatch exCfgAuto lockedWorld [(exRecord, exOracleOk, 1000)] 900

/-- One legacy `append_entry` call on an empty ledger. -/
def c5Ledger : Ledger := appendEntry emptyLedger "legacy-key" "MID-L" "run-L" 100

/-- A SENT event recorded under the legacy v1 key only (its request key is
a v1-style key, not the v2 key the next run derives). -/
def exLegacySent : Event :=
  { createdAt := 500, requestKey := "legacy-rk", v1Key := "v1k1", keyVersion := "v1",
    runId := "run-0", status := Status.sent, messageId := "M0",
    messageIdSource := "direct", sentAt := some 500 }

/-- World whose ledger records that legacy SENT event. -/
def legacyWorld : World :=
  ⟨⟨[exLegacySent], [], [], [exLegacySent]⟩, []⟩

/-- Potential of a request key: SENT events ever recorded plus live
UNKNOWN_SENT lock rows. Each successful transport delivery raises the
budget by one; the orchestrator never exceeds it. -/
def phi (led : Ledger) (k : String) : Nat :=
  sentCount led.history k + unknownLockCount led.locks k

/-- Ledger states reachable by the orchestrator: every SENT event of the
history is preceded by an IN_PROGRESS or UNKNOWN_SENT event for its key,
and every UNKNOWN_SENT lock row is backed by such an event. -/
def LedgerBacked (st : Ledger) : Prop :=
  sentPrecededOk st.history = true ∧
  ∀ l ∈ st.locks, l.status = Status.unknownSent → backs st.history l.requestKey = true

end SendKernel

/-! ## Theorems -/

namespace SendKernel

theorem takeWhile_append_notAt (l d : List Char) (h : '@' ∉ l) :
    (l ++ '@' :: d).takeWhile (· != '@') = l := by
  induction l with
  | nil => simp [List.takeWhile]
  | cons c cs ih =>
    have hc : c ≠ '@' := fun hc => h (hc ▸ List.mem_cons_self c cs)
    have hcs : '@' ∉ cs := fun hm => h (List.mem_cons_of_mem c hm)
    simp [List.takeWhile_cons, hc, ih hcs]

theorem dropWhile_append_notAt (l d : List Char) (h : '@' ∉ l) :
    (l ++ '@' :: d).dropWhile (· != '@') = '@' :: d := by
  induction l with
  | nil => simp [List.dropWhile]
  | cons c cs ih =>
    have hc : c ≠ '@' := fun hc => h (hc ▸ List.mem_cons_self c cs)
    have hcs : '@' ∉ cs := fun hm => h (List.mem_cons_of_mem c hm)
    simp [List.dropWhile_cons, hc, ih hcs]

theorem contains_append_at (l d : List Char) :
    (l ++ '@' :: d).contains '@' = true :=
  List.elem_iff.mpr (by simp)

theorem contains_eq_false_of_not_mem {l : List Char} (h : '@' ∉ l) :
    l.contains '@' = false := by
  cases hc : l.contains '@' with
  | false => rfl
  | true => exact absurd (List.elem_iff.mp hc) h

/-- C9: screen masking renders the local part as a prefix of at most three
characters followed by `***` with `@domain` preserved (three characters
when the local part is longer than three, its first character otherwise);
error masking renders `***@domain` whenever the input contains `@` and
`***` otherwise; and error masking is applied recursively inside dicts,
lists, and strings of structured error payloads, on strings via the
conservative email-regex replacement `maskEmailsInText`. -/
theorem C9_mask_laws :
    (∀ l d : String, l.data ≠ [] → '@' ∉ l.data →
      maskEmail (l ++ "@" ++ d) =
        some (String.mk (l.data.take (if l.data.length ≤ 3 then 1 else 3)
          ++ ('*' :: '*' :: '*' :: '@' :: d.data))))
    ∧ (∀ l d : String, '@' ∉ l.data →
      maskEmailDomainOnly (l ++ "@" ++ d) =
        String.mk ('*' :: '*' :: '*' :: '@' :: d.data))
    ∧ (∀ s : String, '@' ∉ s.data → maskEmailDomainOnly s = "***")
    ∧ (∀ kvs, maskErrorDetails (ErrValue.dict kvs)
        = ErrValue.dict (kvs.map (fun kv => (kv.1, maskErrorDetails kv.2))))
    ∧ (∀ vs, maskErrorDetails (ErrValue.list vs)
        = ErrValue.list (vs.map maskErrorDetails))
    ∧ (∀ s, maskErrorDetails (ErrValue.str s) = ErrValue.str (maskEmailsInText s))
    ∧ maskEmailsInText "notify user@example.com now" = "notify ***@example.com now" := by
  refine ⟨?_, ?_, ?_, ?_, ?_, ?_, ?_⟩
  · rintro ⟨ld⟩ ⟨dd⟩ hne hnot
    simp only at hne hnot
    have hdata : ((⟨ld⟩ ++ "@" ++ ⟨dd⟩ : String)).data = ld ++ '@' :: dd := by
      simp [String.data_append]
    unfold maskEmail
    rw [hdata, contains_append_at, takeWhile_append_notAt _ _ hnot,
      dropWhile_append_notAt _ _ hnot]
    have hempty : ld.isEmpty = false := by
      cases ld with
      | nil => exact absurd rfl hne
      | cons a as => rfl
    simp only [if_true, List.drop_succ_cons, List.drop_zero, hempty, Bool.false_eq_true,
      if_false]
    by_cases hlen : ld.length ≤ 3 <;> simp [hlen]
  · rintro ⟨ld⟩ ⟨dd⟩ hnot
    simp only at hnot
    have hdata : ((⟨ld⟩ ++ "@" ++ ⟨dd⟩ : String)).data = ld ++ '@' :: dd := by
      simp [String.data_append]
    unfold maskEmailDomainOnly
    rw [hdata, contains_append_at, dropWhile_append_notAt _ _ hnot]
    simp
  · rintro ⟨sd⟩ hnot
    simp only at hnot
    unfold maskEmailDomainOnly
    rw [contains_eq_false_of_not_mem hnot]
    simp
  · intro kvs
    have : ∀ kvs, maskErrorKvs kvs = kvs.map (fun kv => (kv.1, maskErrorDetails kv.2)) := by
      intro kvs
      induction kvs with
      | nil => rfl
      | cons kv rest ih => cases kv; simp [maskErrorKvs, ih]
    simp [maskErrorDetails, this]
  · intro vs
    have : ∀ vs, maskErrorList vs = vs.map maskErrorDetails := by
      intro vs
      induction vs with
      | nil => rfl
      | cons v rest ih => simp [maskErrorList, ih]
    simp [maskErrorDetails, this]
  · intro s
    rfl
  · decide

theorem toNat_ofNat_valid (n : Nat) (h : Nat.isValidChar n) : (Char.ofNat n).toNat = n := by
  simp [Char.ofNat, h, Char.ofNatAux, Char.toNat]
  rfl

theorem toLower_toLower (c : Char) : c.toLower.toLower = c.toLower := by
  simp only [Char.toLower]
  by_cases h : c.toNat ≥ 65 ∧ c.toNat ≤ 90
  · have hv : Nat.isValidChar (c.toNat + 32) := by left; omega
    have ht : (Char.ofNat (c.toNat + 32)).toNat = c.toNat + 32 := toNat_ofNat_valid _ hv
    rw [if_pos h, ht, if_neg (by omega : ¬(c.toNat + 32 ≥ 65 ∧ c.toNat + 32 ≤ 90))]
  · rw [if_neg h, if_neg h]

theorem dropWhile_eq_self_of_all {p : Char → Bool} {cs : List Char}
    (h : ∀ c ∈ cs, p c = false) : cs.dropWhile p = cs := by
  cases cs with
  | nil => rfl
  | cons c rest => simp [List.dropWhile_cons, h c (List.mem_cons_self c rest)]

theorem pyStrip_eq_self {cs : List Char} (h : ∀ c ∈ cs, isPySpace c = false) :
    pyStrip cs = cs := by
  unfold pyStrip
  rw [dropWhile_eq_self_of_all h,
    dropWhile_eq_self_of_all (fun c hc => h c (List.mem_reverse.mp hc)),
    List.reverse_reverse]

theorem foldCR_eq_self {cs : List Char} (h : '\r' ∉ cs) : foldCR cs = cs := by
  induction cs with
  | nil => rfl
  | cons c rest ih =>
    have hc : c ≠ '\r' := fun hh => h (hh ▸ List.mem_cons_self c rest)
    have hrest : '\r' ∉ rest := fun hm => h (List.mem_cons_of_mem c hm)
    rw [foldCR.eq_def]
    simp [hc, ih hrest]

theorem pyUnquote_eq_self {cs : List Char} (h : '%' ∉ cs) : pyUnquote cs = cs := by
  induction cs with
  | nil => rfl
  | cons c rest ih =>
    have hc : c ≠ '%' := fun hh => h (hh ▸ List.mem_cons_self c rest)
    have hrest : '%' ∉ rest := fun hm => h (List.mem_cons_of_mem c hm)
    rw [pyUnquote.eq_def]
    simp [hc, ih hrest]

theorem pyQuote_eq_self {safe : List Char} {cs : List Char}
    (h : ∀ c ∈ cs, (alwaysSafe c || safe.contains c) = true) : pyQuote safe cs = cs := by
  induction cs with
  | nil => rfl
  | cons c rest ih =>
    have hc := h c (List.mem_cons_self c rest)
    have hrest := fun c hm => h c (List.mem_cons_of_mem _ hm)
    unfold pyQuote at ih ⊢
    rw [List.flatMap_cons, if_pos hc, ih hrest]
    rfl

theorem quotePlus_eq_self {cs : List Char}
    (h : ∀ c ∈ cs, alwaysSafe c = true) : quotePlus cs = cs := by
  induction cs with
  | nil => rfl
  | cons c rest ih =>
    have hc := h c (List.mem_cons_self c rest)
    have hsp : c ≠ ' ' := by
      intro hs
      rw [hs] at hc
      exact absurd hc (by decide)
    have hrest := fun c hm => h c (List.mem_cons_of_mem _ hm)
    unfold quotePlus at ih ⊢
    rw [List.flatMap_cons, if_neg hsp, if_pos hc, ih hrest]
    rfl

theorem takeWhile_append_stop {p : Char → Bool} {l r : List Char} {x : Char}
    (hl : ∀ c ∈ l, p c = true) (hx : p x = false) :
    (l ++ x :: r).takeWhile p = l := by
  rw [List.takeWhile_append_of_pos hl]
  simp [List.takeWhile_cons, hx]

theorem dropWhile_append_stop {p : Char → Bool} {l r : List Char} {x : Char}
    (hl : ∀ c ∈ l, p c = true) (hx : p x = false) :
    (l ++ x :: r).dropWhile p = x :: r := by
  rw [List.dropWhile_append_of_pos hl]
  simp [List.dropWhile_cons, hx]

theorem isPySpace_cases {c : Char} (h : isPySpace c = true) :
    c = ' ' ∨ c = '\t' ∨ c = '\n' ∨ c = '\r' ∨ c = '\x0b' ∨ c = '\x0c' := by
  simp [isPySpace] at h
  tauto

theorem isPySpace_eq_false (c : Char)
    (h : c.isAlpha = true ∨ c.isDigit = true ∨ hostOkChar c = true ∨ pathOkChar c = true ∨
      alwaysSafe c = true ∨ c ∈ [':', '/', '?', '&', '=']) :
    isPySpace c = false := by
  cases hsp : isPySpace c with
  | false => rfl
  | true =>
    rcases isPySpace_cases hsp with rfl | rfl | rfl | rfl | rfl | rfl <;>
      rcases h with h | h | h | h | h | h <;> revert h <;> decide

theorem intercalate_nil (s : List Char) : List.intercalate s ([] : List (List Char)) = [] := by
  simp [List.intercalate]

theorem intercalate_single (s x : List Char) : List.intercalate s [x] = x := by
  simp [List.intercalate]

theorem intercalate_cons₂ (s x y : List Char) (zs : List (List Char)) :
    List.intercalate s (x :: y :: zs) = x ++ s ++ List.intercalate s (y :: zs) := by
  simp [List.intercalate, List.intersperse]

theorem buildQuery_nil : buildQuery [] = [] := rfl

theorem buildQuery_single (p : List Char × List Char) :
    buildQuery [p] = p.1 ++ '=' :: p.2 := by
  simp [buildQuery, intercalate_single]

theorem buildQuery_cons₂ (p q : List Char × List Char) (rest : List (List Char × List Char)) :
    buildQuery (p :: q :: rest) = (p.1 ++ '=' :: p.2) ++ '&' :: buildQuery (q :: rest) := by
  simp [buildQuery, intercalate_cons₂]

theorem mem_buildQuery {c : Char} {ps : List (List Char × List Char)} (h : c ∈ buildQuery ps) :
    c = '&' ∨ c = '=' ∨ ∃ pr ∈ ps, c ∈ pr.1 ∨ c ∈ pr.2 := by
  induction ps with
  | nil => simp [buildQuery_nil] at h
  | cons p rest ih =>
    cases rest with
    | nil =>
      rw [buildQuery_single] at h
      rcases List.mem_append.mp h with h1 | h1
      · exact Or.inr (Or.inr ⟨p, by simp, Or.inl h1⟩)
      · rcases List.mem_cons.mp h1 with rfl | h2
        · exact Or.inr (Or.inl rfl)
        · exact Or.inr (Or.inr ⟨p, by simp, Or.inr h2⟩)
    | cons q rest2 =>
      rw [buildQuery_cons₂] at h
      rcases List.mem_append.mp h with h1 | h1
      · rcases List.mem_append.mp h1 with h2 | h2
        · exact Or.inr (Or.inr ⟨p, by simp, Or.inl h2⟩)
        · rcases List.mem_cons.mp h2 with rfl | h3
          · exact Or.inr (Or.inl rfl)
          · exact Or.inr (Or.inr ⟨p, by simp, Or.inr h3⟩)
      · rcases List.mem_cons.mp h1 with rfl | h2
        · exact Or.inl rfl
        · rcases ih h2 with h3 | h3 | ⟨pr, hpr, h3⟩
          · exact Or.inl h3
          · exact Or.inr (Or.inl h3)
          · exact Or.inr (Or.inr ⟨pr, List.mem_cons_of_mem _ hpr, h3⟩)

theorem wfUrl_parts {u : UrlInput} (h : wfUrl u = true) :
    (!u.scheme.isEmpty) = true ∧ u.scheme.all Char.isAlpha = true ∧
    (!u.host.isEmpty) = true ∧ u.host.all hostOkChar = true ∧
    (match u.port with
      | some p => !p.isEmpty && p.all Char.isDigit
      | none => true) = true ∧
    (u.path.head? == some '/') = true ∧ u.path.all pathOkChar = true ∧
    u.pairs.all (fun pr => pr.1.all alwaysSafe && pr.2.all alwaysSafe) = true := by
  simp only [wfUrl, Bool.and_eq_true] at h
  tauto

theorem buildUrlData_not_pySpace {u : UrlInput} (h : wfUrl u = true) :
    ∀ c ∈ buildUrlData u, isPySpace c = false := by
  obtain ⟨-, hs2, -, hh2, hp, -, hpc, hq⟩ := wfUrl_parts h
  intro c hc
  unfold buildUrlData at hc
  rcases List.mem_append.mp hc with h1 | h1
  swap
  · cases hemp : u.pairs.isEmpty with
    | true => simp [hemp] at h1
    | false =>
      simp only [hemp, Bool.false_eq_true, if_false] at h1
      rcases List.mem_cons.mp h1 with rfl | h2
      · decide
      · rcases mem_buildQuery h2 with rfl | rfl | ⟨pr, hpr, hmem⟩
        · decide
        · decide
        · have hprs := List.all_eq_true.mp hq pr hpr
          simp only [Bool.and_eq_true] at hprs
          rcases hmem with hmem | hmem
          · exact isPySpace_eq_false c
              (Or.inr (Or.inr (Or.inr (Or.inr (Or.inl
                (List.all_eq_true.mp hprs.1 c hmem))))))
          · exact isPySpace_eq_false c
              (Or.inr (Or.inr (Or.inr (Or.inr (Or.inl
                (List.all_eq_true.mp hprs.2 c hmem))))))
  rcases List.mem_append.mp h1 with h1 | h1
  swap
  · exact isPySpace_eq_false c
      (Or.inr (Or.inr (Or.inr (Or.inl (List.all_eq_true.mp hpc c h1)))))
  rcases List.mem_append.mp h1 with h1 | h1
  swap
  · cases hport : u.port with
    | none => rw [hport] at h1; simp [portPart] at h1
    | some p =>
      rw [hport] at h1
      rw [hport] at hp
      simp only [Bool.and_eq_true] at hp
      rcases List.mem_cons.mp h1 with rfl | h2
      · decide
      · exact isPySpace_eq_false c (Or.inr (Or.inl (List.all_eq_true.mp hp.2 c h2)))
  rcases List.mem_append.mp h1 with h1 | h1
  · exact isPySpace_eq_false c (Or.inl (List.all_eq_true.mp hs2 c h1))
  · rcases List.mem_cons.mp h1 with rfl | h1
    · decide
    · rcases List.mem_cons.mp h1 with rfl | h1
      · decide
      · rcases List.mem_cons.mp h1 with rfl | h1
        · decide
        · exact isPySpace_eq_false c
            (Or.inr (Or.inr (Or.inl (List.all_eq_true.mp hh2 c h1))))

theorem normalizeText_buildUrl {u : UrlInput} (h : wfUrl u = true) :
    normalizeText (buildUrl u) = buildUrl u := by
  have hns := buildUrlData_not_pySpace h
  have hcr : '\r' ∉ buildUrlData u := by
    intro hmem
    have := hns '\r' hmem
    exact absurd this (by decide)
  unfold normalizeText buildUrl
  show String.mk (pyStrip (foldCR (buildUrlData u))) = String.mk (buildUrlData u)
  rw [foldCR_eq_self hcr, pyStrip_eq_self hns]

theorem drop_len_succ_append (l : List Char) (x : Char) (r : List Char) :
    (l ++ x :: r).drop (l.length + 1) = r := by
  have hsplit : l ++ x :: r = (l ++ [x]) ++ r := by simp
  rw [hsplit]
  exact List.drop_left' (by simp)

theorem bne_true_of_pred {p : Char → Bool} {c x : Char} (hc : p c = true) (hx : p x = false) :
    (c != x) = true := by
  rw [bne_iff_ne]
  intro he
  subst he
  rw [hc] at hx
  exact absurd hx (by decide)

theorem isNetlocEnd_cases {c : Char} (h : isNetlocEnd c = true) :
    c = '/' ∨ c = '?' ∨ c = '#' := by
  simp [isNetlocEnd] at h
  tauto

theorem not_netlocEnd_of_hostOk {c : Char} (h : hostOkChar c = true) :
    (!isNetlocEnd c) = true := by
  cases he : isNetlocEnd c with
  | false => rfl
  | true => rcases isNetlocEnd_cases he with rfl | rfl | rfl <;> revert h <;> decide

theorem not_netlocEnd_of_digit {c : Char} (h : c.isDigit = true) :
    (!isNetlocEnd c) = true := by
  cases he : isNetlocEnd c with
  | false => rfl
  | true => rcases isNetlocEnd_cases he with rfl | rfl | rfl <;> revert h <;> decide

theorem buildUrlData_shape (u : UrlInput) :
    buildUrlData u = u.scheme ++ ':' :: '/' :: '/' ::
      (u.host ++ (portPart u.port ++ (u.path ++
        (if u.pairs.isEmpty then [] else '?' :: buildQuery u.pairs)))) := by
  unfold buildUrlData
  simp [List.append_assoc]

theorem splitScheme_buildUrl {u : UrlInput} (h : wfUrl u = true) :
    splitScheme (buildUrlData u) =
      (u.scheme.map Char.toLower, '/' :: '/' ::
        (u.host ++ (portPart u.port ++ (u.path ++
          (if u.pairs.isEmpty then [] else '?' :: buildQuery u.pairs))))) := by
  obtain ⟨hs1, hs2, -, -, -, -, -, -⟩ := wfUrl_parts h
  have halpha := List.all_eq_true.mp hs2
  rw [buildUrlData_shape]
  unfold splitScheme
  have htake : (u.scheme ++ ':' :: '/' :: '/' ::
      (u.host ++ (portPart u.port ++ (u.path ++
        (if u.pairs.isEmpty then [] else '?' :: buildQuery u.pairs))))).takeWhile
        (· != ':') = u.scheme :=
    takeWhile_append_stop (fun c hc => bne_true_of_pred (halpha c hc) (by decide)) (by simp)
  rw [htake]
  have hlen : u.scheme.length < (u.scheme ++ ':' :: '/' :: '/' ::
      (u.host ++ (portPart u.port ++ (u.path ++
        (if u.pairs.isEmpty then [] else '?' :: buildQuery u.pairs))))).length := by
    simp
  have hne : u.scheme.isEmpty = false := by
    rw [Bool.not_eq_true'] at hs1
    exact hs1
  have hhead : (match u.scheme.head? with
      | some c => c.isAlpha
      | none => false) = true := by
    cases hsch : u.scheme with
    | nil => rw [hsch] at hne; simp at hne
    | cons a as =>
      simp only [List.head?_cons]
      exact halpha a (by rw [hsch]; exact List.mem_cons_self a as)
  have hschemechars : u.scheme.all isSchemeChar = true := by
    rw [List.all_eq_true]
    intro c hc
    have := halpha c hc
    simp [isSchemeChar, this]
  rw [if_pos]
  · congr 1
    exact drop_len_succ_append _ _ _
  · simp only [Bool.and_eq_true, decide_eq_true_eq]
    refine ⟨⟨⟨hlen, by simp [hne]⟩, hhead⟩, hschemechars⟩

theorem splitNetloc_after_scheme {u : UrlInput} (h : wfUrl u = true) :
    splitNetloc ('/' :: '/' ::
      (u.host ++ (portPart u.port ++ (u.path ++
        (if u.pairs.isEmpty then [] else '?' :: buildQuery u.pairs))))) =
      (u.host ++ portPart u.port,
        u.path ++ (if u.pairs.isEmpty then [] else '?' :: buildQuery u.pairs)) := by
  obtain ⟨-, -, -, hh2, hp, hph, -, -⟩ := wfUrl_parts h
  obtain ⟨pt, hpath⟩ : ∃ pt, u.path = '/' :: pt := by
    cases hpa : u.path with
    | nil => rw [hpa] at hph; simp at hph
    | cons a as =>
      rw [hpa] at hph
      simp only [List.head?_cons, beq_iff_eq, Option.some.injEq] at hph
      exact ⟨as, by rw [hph]⟩
  have hhost : ∀ c ∈ u.host, (!isNetlocEnd c) = true :=
    fun c hc => not_netlocEnd_of_hostOk (List.all_eq_true.mp hh2 c hc)
  have hport : ∀ c ∈ portPart u.port, (!isNetlocEnd c) = true := by
    cases hpo : u.port with
    | none => intro c hc; simp [portPart] at hc
    | some p =>
      rw [hpo] at hp
      replace hp : (!p.isEmpty && p.all Char.isDigit) = true := hp
      simp only [Bool.and_eq_true] at hp
      intro c hc
      rcases List.mem_cons.mp hc with rfl | hc2
      · decide
      · exact not_netlocEnd_of_digit (List.all_eq_true.mp hp.2 c hc2)
  unfold splitNetloc
  rw [hpath]
  simp only [List.cons_append]
  rw [List.takeWhile_append_of_pos hhost, List.takeWhile_append_of_pos hport,
    List.dropWhile_append_of_pos hhost, List.dropWhile_append_of_pos hport]
  simp [List.takeWhile_cons, List.dropWhile_cons, isNetlocEnd]

theorem splitOnFirst_none {sep : Char} {cs : List Char} (h : sep ∉ cs) :
    splitOnFirst sep cs = (cs, none) := by
  unfold splitOnFirst
  have : cs.takeWhile (· != sep) = cs :=
    List.takeWhile_eq_self_iff.mpr (fun c hc => bne_iff_ne.mpr (fun he => h (he ▸ hc)))
  rw [this]
  simp

theorem splitOnFirst_found {sep : Char} {l r : List Char} (h : ∀ c ∈ l, c ≠ sep) :
    splitOnFirst sep (l ++ sep :: r) = (l, some r) := by
  unfold splitOnFirst
  have htake : (l ++ sep :: r).takeWhile (· != sep) = l :=
    takeWhile_append_stop (fun c hc => bne_iff_ne.mpr (h c hc)) (by simp)
  rw [htake]
  have hlen : l.length ≠ (l ++ sep :: r).length := by
    simp
  rw [if_neg hlen]
  rw [drop_len_succ_append]

theorem mem_buildQuery_safe {u : UrlInput} (h : wfUrl u = true) :
    ∀ c ∈ buildQuery u.pairs, c = '&' ∨ c = '=' ∨ alwaysSafe c = true := by
  obtain ⟨-, -, -, -, -, -, -, hq⟩ := wfUrl_parts h
  intro c hc
  rcases mem_buildQuery hc with rfl | rfl | ⟨pr, hpr, hmem⟩
  · exact Or.inl rfl
  · exact Or.inr (Or.inl rfl)
  · have hprs := List.all_eq_true.mp hq pr hpr
    simp only [Bool.and_eq_true] at hprs
    rcases hmem with hmem | hmem
    · exact Or.inr (Or.inr (List.all_eq_true.mp hprs.1 c hmem))
    · exact Or.inr (Or.inr (List.all_eq_true.mp hprs.2 c hmem))

theorem pyUrlsplit_buildUrl {u : UrlInput} (h : wfUrl u = true) :
    pyUrlsplit (buildUrlData u) =
      { scheme := u.scheme.map Char.toLower,
        netloc := u.host ++ portPart u.port,
        path := u.path,
        query := buildQuery u.pairs,
        fragment := [] } := by
  obtain ⟨-, -, -, -, -, -, hpc, -⟩ := wfUrl_parts h
  have hsch := splitScheme_buildUrl h
  have hnet := splitNetloc_after_scheme h
  have hpathchars := List.all_eq_true.mp hpc
  have hpath_ne : ∀ x : Char, pathOkChar x = false → ∀ c ∈ u.path, c ≠ x := by
    intro x hx c hc he
    subst he
    rw [hpathchars c hc] at hx
    exact absurd hx (by decide)
  have hq_ne : ∀ x : Char, alwaysSafe x = false → x ≠ '&' → x ≠ '=' →
      ∀ c ∈ buildQuery u.pairs, c ≠ x := by
    intro x hx hamp heq c hc he
    subst he
    rcases mem_buildQuery_safe h c hc with rfl | rfl | hsafe
    · exact hamp rfl
    · exact heq rfl
    · rw [hsafe] at hx
      exact absurd hx (by decide)
  cases hemp : u.pairs.isEmpty with
  | true =>
    have hpairs : u.pairs = [] := by
      cases hps : u.pairs with
      | nil => rfl
      | cons a as => rw [hps] at hemp; simp at hemp
    simp only [hemp, if_true] at hsch hnet
    have hnohash : '#' ∉ u.path ++ ([] : List Char) := by
      rw [List.append_nil]
      intro hmem
      exact hpath_ne '#' (by decide) '#' hmem rfl
    have hnoq : '?' ∉ u.path ++ ([] : List Char) := by
      rw [List.append_nil]
      intro hmem
      exact hpath_ne '?' (by decide) '?' hmem rfl
    unfold pyUrlsplit
    rw [hsch]
    simp only
    rw [hnet]
    simp only
    rw [splitOnFirst_none hnohash]
    simp only
    rw [List.append_nil, splitOnFirst_none (by rw [← List.append_nil u.path]; exact hnoq)]
    simp [hpairs, buildQuery_nil]
  | false =>
    simp only [hemp, Bool.false_eq_true, if_false] at hsch hnet
    have hnohash : '#' ∉ u.path ++ '?' :: buildQuery u.pairs := by
      intro hmem
      rcases List.mem_append.mp hmem with hm | hm
      · exact hpath_ne '#' (by decide) '#' hm rfl
      · rcases List.mem_cons.mp hm with he | hm2
        · exact absurd he (by decide)
        · exact hq_ne '#' (by decide) (by decide) (by decide) '#' hm2 rfl
    unfold pyUrlsplit
    rw [hsch]
    simp only
    rw [hnet]
    simp only
    rw [splitOnFirst_none hnohash]
    simp only
    rw [splitOnFirst_found (hpath_ne '?' (by decide))]
    simp

theorem hostOk_ranges (c : Char) (h : hostOkChar c = true) :
    (65 ≤ c.toNat ∧ c.toNat ≤ 90) ∨ (97 ≤ c.toNat ∧ c.toNat ≤ 122) ∨
    (48 ≤ c.toNat ∧ c.toNat ≤ 57) ∨ c.toNat = 46 ∨ c.toNat = 45 := by
  simp [hostOkChar, Char.isAlpha, Char.isUpper, Char.isLower, Char.isDigit, Char.le_def] at h
  rcases h with (((⟨h1, h2⟩ | ⟨h1, h2⟩) | ⟨h1, h2⟩) | rfl) | rfl
  · exact Or.inl ⟨h1, h2⟩
  · exact Or.inr (Or.inl ⟨h1, h2⟩)
  · exact Or.inr (Or.inr (Or.inl ⟨h1, h2⟩))
  · exact Or.inr (Or.inr (Or.inr (Or.inl rfl)))
  · exact Or.inr (Or.inr (Or.inr (Or.inr rfl)))

theorem digit_range (c : Char) (h : c.isDigit = true) :
    48 ≤ c.toNat ∧ c.toNat ≤ 57 := by
  simp only [Char.isDigit, Bool.and_eq_true, decide_eq_true_eq] at h
  exact ⟨h.1, h.2⟩

theorem alwaysSafe_ranges (c : Char) (h : alwaysSafe c = true) :
    (65 ≤ c.toNat ∧ c.toNat ≤ 90) ∨ (97 ≤ c.toNat ∧ c.toNat ≤ 122) ∨
    (48 ≤ c.toNat ∧ c.toNat ≤ 57) ∨ c.toNat = 95 ∨ c.toNat = 46 ∨ c.toNat = 45 ∨
    c.toNat = 126 := by
  simp [alwaysSafe, Char.isAlpha, Char.isUpper, Char.isLower, Char.isDigit, Char.le_def] at h
  rcases h with (((((⟨h1, h2⟩ | ⟨h1, h2⟩) | ⟨h1, h2⟩) | rfl) | rfl) | rfl) | rfl
  · exact Or.inl ⟨h1, h2⟩
  · exact Or.inr (Or.inl ⟨h1, h2⟩)
  · exact Or.inr (Or.inr (Or.inl ⟨h1, h2⟩))
  · exact Or.inr (Or.inr (Or.inr (Or.inl rfl)))
  · exact Or.inr (Or.inr (Or.inr (Or.inr (Or.inl rfl))))
  · exact Or.inr (Or.inr (Or.inr (Or.inr (Or.inr (Or.inl rfl)))))
  · exact Or.inr (Or.inr (Or.inr (Or.inr (Or.inr (Or.inr rfl)))))

theorem char_ne_of_toNat {c x : Char} (h : c.toNat ≠ x.toNat) : c ≠ x :=
  fun he => h (he ▸ rfl)

theorem toLower_toNat (c : Char) :
    c.toLower.toNat = if 65 ≤ c.toNat ∧ c.toNat ≤ 90 then c.toNat + 32 else c.toNat := by
  simp only [Char.toLower]
  by_cases h : c.toNat ≥ 65 ∧ c.toNat ≤ 90
  · rw [if_pos h, if_pos ⟨h.1, h.2⟩]
    exact toNat_ofNat_valid _ (by left; omega)
  · rw [if_neg h, if_neg (fun hh => h ⟨hh.1, hh.2⟩)]

theorem toLower_eq_self_of_toNat {c : Char} (h : ¬(65 ≤ c.toNat ∧ c.toNat ≤ 90)) :
    c.toLower = c := by
  simp only [Char.toLower]
  rw [if_neg (fun hh => h ⟨hh.1, hh.2⟩)]

theorem isPySpace_eq_false_of_ge {c : Char} (h : 33 ≤ c.toNat) : isPySpace c = false := by
  cases hsp : isPySpace c with
  | false => rfl
  | true =>
    rcases isPySpace_cases hsp with rfl | rfl | rfl | rfl | rfl | rfl <;>
      exact absurd h (by decide)

theorem toNat_toLower_ge33 {c : Char} (h : 33 ≤ c.toNat) : 33 ≤ c.toLower.toNat := by
  rw [toLower_toNat]
  split <;> omega

theorem hostOk_toNat_ge33 {c : Char} (h : hostOkChar c = true) : 33 ≤ c.toNat := by
  rcases hostOk_ranges c h with ⟨a, b⟩ | ⟨a, b⟩ | ⟨a, b⟩ | e | e <;> omega

theorem hostOk_toLower_ne_colon {c : Char} (h : hostOkChar c = true) : c.toLower ≠ ':' := by
  apply char_ne_of_toNat
  rw [toLower_toNat]
  have h58 : (':').toNat = 58 := rfl
  rw [h58]
  rcases hostOk_ranges c h with ⟨a, b⟩ | ⟨a, b⟩ | ⟨a, b⟩ | e | e <;> split <;> omega

theorem digit_toLower_self {c : Char} (h : c.isDigit = true) : c.toLower = c := by
  have := digit_range c h
  exact toLower_eq_self_of_toNat (by omega)

theorem digit_ne_colon {c : Char} (h : c.isDigit = true) : c ≠ ':' := by
  have hd := digit_range c h
  have h58 : (':').toNat = 58 := rfl
  exact char_ne_of_toNat (by rw [h58]; omega)

theorem alwaysSafe_ne {c : Char} (h : alwaysSafe c = true) (x : Char)
    (hx : x = '&' ∨ x = '=' ∨ x = '+' ∨ x = '%') : c ≠ x := by
  apply char_ne_of_toNat
  have h38 : ('&').toNat = 38 := rfl
  have h61 : ('=').toNat = 61 := rfl
  have h43 : ('+').toNat = 43 := rfl
  have h37 : ('%').toNat = 37 := rfl
  rcases hx with rfl | rfl | rfl | rfl <;>
    [rw [h38]; rw [h61]; rw [h43]; rw [h37]] <;>
    rcases alwaysSafe_ranges c h with ⟨a, b⟩ | ⟨a, b⟩ | ⟨a, b⟩ | e | e | e | e <;> omega

theorem map_id_of_eq {l : List Char} {f : Char → Char} (h : ∀ a ∈ l, f a = a) :
    l.map f = l := by
  induction l with
  | nil => rfl
  | cons a rest ih =>
    rw [List.map_cons, h a (List.mem_cons_self a rest),
      ih (fun b hb => h b (List.mem_cons_of_mem a hb))]

theorem map_toLower_idem (l : List Char) :
    (l.map Char.toLower).map Char.toLower = l.map Char.toLower := by
  rw [List.map_map]
  exact List.map_eq_map_iff.mpr (fun a _ => toLower_toLower a)

theorem portPart_map_toLower {u : UrlInput} (h : wfUrl u = true) :
    (portPart u.port).map Char.toLower = portPart u.port := by
  obtain ⟨-, -, -, -, hp, -, -, -⟩ := wfUrl_parts h
  cases hpo : u.port with
  | none => rfl
  | some p =>
    rw [hpo] at hp
    replace hp : (!p.isEmpty && p.all Char.isDigit) = true := hp
    simp only [Bool.and_eq_true] at hp
    simp only [portPart, List.map_cons]
    rw [show (':').toLower = ':' from by decide,
      map_id_of_eq (fun a ha => digit_toLower_self (List.all_eq_true.mp hp.2 a ha))]

theorem netloc_lower_strip {u : UrlInput} (h : wfUrl u = true) :
    pyStrip ((u.host ++ portPart u.port).map Char.toLower) =
      u.host.map Char.toLower ++ portPart u.port := by
  obtain ⟨-, -, -, hh2, hp, -, -, -⟩ := wfUrl_parts h
  rw [List.map_append, portPart_map_toLower h]
  apply pyStrip_eq_self
  intro c hc
  rcases List.mem_append.mp hc with hc | hc
  · rcases List.mem_map.mp hc with ⟨c0, hc0, rfl⟩
    exact isPySpace_eq_false_of_ge
      (toNat_toLower_ge33 (hostOk_toNat_ge33 (List.all_eq_true.mp hh2 c0 hc0)))
  · cases hpo : u.port with
    | none => rw [hpo] at hc; simp [portPart] at hc
    | some p =>
      rw [hpo] at hc hp
      replace hp : (!p.isEmpty && p.all Char.isDigit) = true := hp
      simp only [Bool.and_eq_true] at hp
      rcases List.mem_cons.mp hc with rfl | hc2
      · decide
      · have := digit_range c (List.all_eq_true.mp hp.2 c hc2)
        exact isPySpace_eq_false_of_ge (by omega)

theorem stripDefaultPort_nocolon {schemeL netloc : List Char} (hno : ':' ∉ netloc) :
    stripDefaultPort schemeL netloc = netloc := by
  unfold stripDefaultPort
  rw [if_neg]
  intro hc
  exact hno (List.elem_iff.mp hc)

theorem stripDefaultPort_eval {schemeL hostL p : List Char} (hno : ':' ∉ hostL)
    (hpd : ∀ c ∈ p, c ≠ ':') :
    stripDefaultPort schemeL (hostL ++ ':' :: p) =
      if isDefaultPort schemeL p then hostL else hostL ++ ':' :: p := by
  unfold stripDefaultPort
  rw [if_pos (List.elem_iff.mpr (by simp))]
  have hrev : (hostL ++ ':' :: p).reverse = p.reverse ++ ':' :: hostL.reverse := by
    simp
  have htake : (p.reverse ++ ':' :: hostL.reverse).takeWhile (· != ':') = p.reverse :=
    takeWhile_append_stop
      (fun c hc => bne_iff_ne.mpr (hpd c (List.mem_reverse.mp hc))) (by simp)
  have harith : (hostL ++ ':' :: p).length - p.reverse.length - 1 = hostL.length := by
    simp
    omega
  simp only [hrev, htake, List.reverse_reverse, harith, List.take_left]

theorem canonicalNetloc_eval {u : UrlInput} (h : wfUrl u = true) :
    stripDefaultPort (u.scheme.map Char.toLower)
      (u.host.map Char.toLower ++ portPart u.port) = canonicalNetloc u := by
  obtain ⟨-, -, -, hh2, hp, -, -, -⟩ := wfUrl_parts h
  have hnocolon : ':' ∉ u.host.map Char.toLower := by
    intro hc
    rcases List.mem_map.mp hc with ⟨c0, hc0, he⟩
    exact hostOk_toLower_ne_colon (List.all_eq_true.mp hh2 c0 hc0) he
  cases hpo : u.port with
  | none =>
    simp only [portPart, List.append_nil]
    rw [stripDefaultPort_nocolon hnocolon]
    simp [canonicalNetloc, portNorm, hpo, portPart]
  | some p =>
    rw [hpo] at hp
    replace hp : (!p.isEmpty && p.all Char.isDigit) = true := hp
    simp only [Bool.and_eq_true] at hp
    simp only [portPart]
    rw [stripDefaultPort_eval hnocolon
      (fun c hc => digit_ne_colon (List.all_eq_true.mp hp.2 c hc))]
    simp only [canonicalNetloc, portNorm, hpo]
    cases hdef : isDefaultPort (u.scheme.map Char.toLower) p with
    | true => simp [hdef, portPart]
    | false => simp [hdef, portPart]

theorem path_roundtrip {u : UrlInput} (h : wfUrl u = true) :
    pyQuote pathSafe (pyUnquote u.path) = u.path := by
  obtain ⟨-, -, -, -, -, -, hpc, -⟩ := wfUrl_parts h
  have hpct : '%' ∉ u.path := by
    intro hmem
    have := List.all_eq_true.mp hpc '%' hmem
    exact absurd this (by decide)
  rw [pyUnquote_eq_self hpct]
  exact pyQuote_eq_self (fun c hc => List.all_eq_true.mp hpc c hc)

theorem plusDecode_safe {l : List Char} (hl : ∀ c ∈ l, alwaysSafe c = true) :
    plusDecode l = l := by
  unfold plusDecode
  have hmap : l.map (fun c => if c = '+' then ' ' else c) = l :=
    map_id_of_eq (fun a ha => by
      rw [if_neg (alwaysSafe_ne (hl a ha) '+' (Or.inr (Or.inr (Or.inl rfl))))])
  rw [hmap]
  exact pyUnquote_eq_self
    (fun hmem => absurd rfl (alwaysSafe_ne (hl '%' hmem) '%' (Or.inr (Or.inr (Or.inr rfl)))))

theorem parseQslChunk_pair {k v : List Char} (hk : ∀ c ∈ k, alwaysSafe c = true)
    (hv : ∀ c ∈ v, alwaysSafe c = true) :
    parseQslChunk (k ++ '=' :: v) = some (k, v) := by
  unfold parseQslChunk
  have hne : (k ++ '=' :: v).isEmpty = false := by
    cases k <;> rfl
  rw [hne]
  simp only [Bool.false_eq_true, if_false]
  rw [splitOnFirst_found (fun c hc => alwaysSafe_ne (hk c hc) '=' (Or.inr (Or.inl rfl)))]
  show some (plusDecode k, plusDecode v) = some (k, v)
  rw [plusDecode_safe hk, plusDecode_safe hv]

theorem splitOn_buildQuery {u : UrlInput} (h : wfUrl u = true) (hne : u.pairs ≠ []) :
    (buildQuery u.pairs).splitOn '&' = u.pairs.map (fun p => p.1 ++ '=' :: p.2) := by
  obtain ⟨-, -, -, -, -, -, -, hq⟩ := wfUrl_parts h
  unfold buildQuery
  apply List.splitOn_intercalate
  · intro l hl
    rcases List.mem_map.mp hl with ⟨pr, hpr, rfl⟩
    intro hmem
    have hprs := List.all_eq_true.mp hq pr hpr
    simp only [Bool.and_eq_true] at hprs
    rcases List.mem_append.mp hmem with hm | hm
    · exact absurd rfl
        (alwaysSafe_ne (List.all_eq_true.mp hprs.1 '&' hm) '&' (Or.inl rfl))
    · rcases List.mem_cons.mp hm with he | hm2
      · exact absurd he (by decide)
      · exact absurd rfl
          (alwaysSafe_ne (List.all_eq_true.mp hprs.2 '&' hm2) '&' (Or.inl rfl))
  · intro he
    exact hne (List.map_eq_nil_iff.mp he)

theorem filterMap_parseChunk (ps : List (List Char × List Char))
    (hall : ∀ pr ∈ ps, pr.1.all alwaysSafe = true ∧ pr.2.all alwaysSafe = true) :
    (ps.map (fun p => p.1 ++ '=' :: p.2)).filterMap parseQslChunk = ps := by
  induction ps with
  | nil => rfl
  | cons p rest ih =>
    rw [List.map_cons, List.filterMap_cons]
    obtain ⟨h1, h2⟩ := hall p (List.mem_cons_self p rest)
    rw [parseQslChunk_pair (List.all_eq_true.mp h1) (List.all_eq_true.mp h2)]
    simp only
    rw [ih (fun pr hpr => hall pr (List.mem_cons_of_mem p hpr))]

theorem parseQsl_buildQuery {u : UrlInput} (h : wfUrl u = true) :
    parseQsl (buildQuery u.pairs) = u.pairs := by
  obtain ⟨-, -, -, -, -, -, -, hq⟩ := wfUrl_parts h
  cases hps : u.pairs with
  | nil => rfl
  | cons q qs =>
    rw [← hps]
    unfold parseQsl
    rw [splitOn_buildQuery h (by rw [hps]; exact List.cons_ne_nil q qs)]
    apply filterMap_parseChunk
    intro pr hpr
    have hprs := List.all_eq_true.mp hq pr hpr
    simp only [Bool.and_eq_true] at hprs
    exact hprs

theorem pyUrlunsplit_eval {scheme netloc path query : List Char}
    (hs : scheme.isEmpty = false) (hn : netloc.isEmpty = false)
    (hp : path.head? = some '/') :
    pyUrlunsplit scheme netloc path query =
      scheme ++ ':' :: '/' :: '/' :: (netloc ++ path) ++
        (if query.isEmpty then [] else '?' :: query) := by
  unfold pyUrlunsplit
  have hinner : (!path.isEmpty && path.head? != some '/') = false := by
    rw [hp]
    simp
  simp only [hn, Bool.not_false, if_true, hinner, Bool.false_eq_true, if_false,
    hs, Bool.true_eq_false]
  cases hq : query.isEmpty with
  | true => simp [hq]
  | false => simp [hq]

theorem normalizeInputUrl_buildUrl {u : UrlInput} (h : wfUrl u = true) :
    normalizeInputUrl (buildUrl u) = String.mk (canonicalOfParts u) := by
  obtain ⟨hs1, -, hh1, -, -, hph, -, -⟩ := wfUrl_parts h
  have hsne : u.scheme.isEmpty = false := by
    rw [Bool.not_eq_true'] at hs1
    exact hs1
  have hhne : u.host.isEmpty = false := by
    rw [Bool.not_eq_true'] at hh1
    exact hh1
  have hhead : u.path.head? = some '/' := by
    rw [beq_iff_eq] at hph
    exact hph
  unfold normalizeInputUrl
  rw [normalizeText_buildUrl h]
  show (if (buildUrlData u).isEmpty then ("" : String) else _) = _
  have hbne : (buildUrlData u).isEmpty = false := by
    rw [buildUrlData_shape]
    cases hsch : u.scheme with
    | nil => rw [hsch] at hsne; simp at hsne
    | cons a as => rfl
  rw [hbne]
  simp only [Bool.false_eq_true, if_false]
  show String.mk (pyUrlunsplit
    ((pyUrlsplit (buildUrlData u)).scheme.map Char.toLower)
    (stripDefaultPort ((pyUrlsplit (buildUrlData u)).scheme.map Char.toLower)
      (pyStrip ((pyUrlsplit (buildUrlData u)).netloc.map Char.toLower)))
    (pyQuote pathSafe (pyUnquote
      (if (pyUrlsplit (buildUrlData u)).path.isEmpty then ['/']
        else (pyUrlsplit (buildUrlData u)).path)))
    (urlencodePairs (sortPairs ((parseQsl (pyUrlsplit (buildUrlData u)).query).filter
      (fun p => !isTrackingQueryKey p.1))))) = String.mk (canonicalOfParts u)
  rw [pyUrlsplit_buildUrl h]
  dsimp only
  have hpne : u.path.isEmpty = false := by
    cases hpa : u.path with
    | nil => rw [hpa] at hhead; simp at hhead
    | cons a as => rfl
  rw [map_toLower_idem, netloc_lower_strip h, canonicalNetloc_eval h, hpne]
  simp only [Bool.false_eq_true, if_false]
  rw [path_roundtrip h, parseQsl_buildQuery h]
  have hnne : (canonicalNetloc u).isEmpty = false := by
    unfold canonicalNetloc
    cases hho : u.host with
    | nil => rw [hho] at hhne; simp at hhne
    | cons a as => rfl
  have hsne2 : (u.scheme.map Char.toLower).isEmpty = false := by
    cases hsch : u.scheme with
    | nil => rw [hsch] at hsne; simp at hsne
    | cons a as => rfl
  rw [pyUrlunsplit_eval hsne2 hnne hhead]
  unfold canonicalOfParts canonicalQuery
  congr 1
  simp [List.append_assoc]

instance : IsTotal (List Char × List Char) pairKeyLe where
  total p q := by
    unfold pairKeyLe
    rcases lt_trichotomy p.1 q.1 with h | h | h
    · exact Or.inl (Or.inl h)
    · rcases le_total p.2 q.2 with h2 | h2
      · exact Or.inl (Or.inr ⟨h, h2⟩)
      · exact Or.inr (Or.inr ⟨h.symm, h2⟩)
    · exact Or.inr (Or.inl h)

instance : IsTrans (List Char × List Char) pairKeyLe where
  trans p q r hpq hqr := by
    unfold pairKeyLe at *
    rcases hpq with h1 | ⟨h1, h1b⟩
    · rcases hqr with h2 | ⟨h2, h2b⟩
      · exact Or.inl (h1.trans h2)
      · exact Or.inl (h2 ▸ h1)
    · rcases hqr with h2 | ⟨h2, h2b⟩
      · exact Or.inl (h1 ▸ h2)
      · exact Or.inr ⟨h1.trans h2, h1b.trans h2b⟩

instance : IsAntisymm (List Char × List Char) pairKeyLe where
  antisymm p q hpq hqp := by
    unfold pairKeyLe at *
    rcases hpq with h1 | ⟨h1, h1b⟩
    · rcases hqp with h2 | ⟨h2, h2b⟩
      · exact absurd (h1.trans h2) (lt_irrefl _)
      · exact absurd h1 (h2 ▸ lt_irrefl _)
    · rcases hqp with h2 | ⟨h2, h2b⟩
      · exact absurd h2 (h1 ▸ lt_irrefl _)
      · exact Prod.ext h1 (le_antisymm h1b h2b)

theorem sortPairs_eq_of_perm {ps qs : List (List Char × List Char)} (h : ps.Perm qs) :
    sortPairs ps = sortPairs qs := by
  apply List.eq_of_perm_of_sorted (r := pairKeyLe)
  · exact (List.perm_insertionSort _ ps).trans (h.trans (List.perm_insertionSort _ qs).symm)
  · exact List.sorted_insertionSort _ _
  · exact List.sorted_insertionSort _ _

theorem canonicalOfParts_noise {u₁ u₂ : UrlInput} (hn : urlNoise u₁ u₂) :
    canonicalOfParts u₁ = canonicalOfParts u₂ := by
  obtain ⟨hs, hh, hp, hpa, hq⟩ := hn
  have hnet : canonicalNetloc u₁ = canonicalNetloc u₂ := by
    unfold canonicalNetloc
    rw [hh, hp]
  have hquery : canonicalQuery u₁ = canonicalQuery u₂ := by
    unfold canonicalQuery
    rw [sortPairs_eq_of_perm hq]
  unfold canonicalOfParts
  rw [hs, hnet, hpa, hquery]

theorem parseQsl_buildQuery_gen (ps : List (List Char × List Char))
    (hsafe : ∀ pr ∈ ps, pr.1.all alwaysSafe = true ∧ pr.2.all alwaysSafe = true) :
    parseQsl (buildQuery ps) = ps := by
  cases hps : ps with
  | nil => rfl
  | cons q qs =>
    subst hps
    unfold parseQsl buildQuery
    rw [List.splitOn_intercalate]
    · exact filterMap_parseChunk _ hsafe
    · intro l hl
      rcases List.mem_map.mp hl with ⟨pr, hpr, rfl⟩
      intro hmem
      obtain ⟨h1, h2⟩ := hsafe pr hpr
      rcases List.mem_append.mp hmem with hm | hm
      · exact absurd rfl (alwaysSafe_ne (List.all_eq_true.mp h1 '&' hm) '&' (Or.inl rfl))
      · rcases List.mem_cons.mp hm with he | hm2
        · exact absurd he (by decide)
        · exact absurd rfl
            (alwaysSafe_ne (List.all_eq_true.mp h2 '&' hm2) '&' (Or.inl rfl))
    · simp

theorem buildQuery_injOn {ps qs : List (List Char × List Char)}
    (hp : ∀ pr ∈ ps, pr.1.all alwaysSafe = true ∧ pr.2.all alwaysSafe = true)
    (hq : ∀ pr ∈ qs, pr.1.all alwaysSafe = true ∧ pr.2.all alwaysSafe = true)
    (h : buildQuery ps = buildQuery qs) : ps = qs := by
  have := congrArg parseQsl h
  rwa [parseQsl_buildQuery_gen ps hp, parseQsl_buildQuery_gen qs hq] at this

theorem quotePlus_safe_pairs {ps : List (List Char × List Char)}
    (hp : ∀ pr ∈ ps, pr.1.all alwaysSafe = true ∧ pr.2.all alwaysSafe = true) :
    urlencodePairs ps = buildQuery ps := by
  unfold urlencodePairs buildQuery
  congr 1
  apply List.map_eq_map_iff.mpr
  intro pr hpr
  obtain ⟨h1, h2⟩ := hp pr hpr
  rw [quotePlus_eq_self (List.all_eq_true.mp h1), quotePlus_eq_self (List.all_eq_true.mp h2)]

theorem buildQuery_ne_nil {ps : List (List Char × List Char)} (h : ps ≠ []) :
    (buildQuery ps).isEmpty = false := by
  cases ps with
  | nil => exact absurd rfl h
  | cons p rest =>
    cases rest with
    | nil =>
      rw [buildQuery_single]
      cases hp1 : p.1 <;> rfl
    | cons q rest2 =>
      rw [buildQuery_cons₂]
      cases hp1 : (p.1 ++ '=' :: p.2) with
      | nil => exact absurd hp1 (by cases p.1 <;> simp)
      | cons a as => rfl

theorem requestKeyPayload_url_inj {e m q url₁ url₂ : String}
    (h : requestKeyPayload e m url₁ q = requestKeyPayload e m url₂ q) : url₁ = url₂ := by
  have hd := congrArg String.data h
  simp only [requestKeyPayload, String.data_append, List.append_assoc] at hd
  have h1 := List.append_cancel_left hd
  have h2 := List.append_cancel_left h1
  have h3 := List.append_cancel_left h2
  have h4 := List.append_cancel_left h3
  exact String.ext (List.append_cancel_right h4)

theorem sorted_safe_of_wf {u : UrlInput} (h : wfUrl u = true) :
    ∀ pr ∈ sortPairs (u.pairs.filter (fun p => !isTrackingQueryKey p.1)),
      pr.1.all alwaysSafe = true ∧ pr.2.all alwaysSafe = true := by
  obtain ⟨-, -, -, -, -, -, -, hq⟩ := wfUrl_parts h
  intro pr hpr
  have hmem : pr ∈ u.pairs.filter (fun p => !isTrackingQueryKey p.1) :=
    (List.perm_insertionSort pairKeyLe _).mem_iff.mp hpr
  have hmem2 : pr ∈ u.pairs := List.mem_of_mem_filter hmem
  have := List.all_eq_true.mp hq pr hmem2
  simp only [Bool.and_eq_true] at this
  exact this

theorem canonicalQuery_sku_ne {u : UrlInput} {pre post : List (List Char × List Char)}
    {k v v' : List Char}
    (h1 : wfUrl { u with pairs := pre ++ (k, v) :: post } = true)
    (h2 : wfUrl { u with pairs := pre ++ (k, v') :: post } = true)
    (htr : isTrackingQueryKey k = false) (hvv : v ≠ v') :
    canonicalQuery { u with pairs := pre ++ (k, v) :: post } ≠
      canonicalQuery { u with pairs := pre ++ (k, v') :: post } := by
  intro he
  unfold canonicalQuery at he
  rw [quotePlus_safe_pairs (sorted_safe_of_wf h1),
    quotePlus_safe_pairs (sorted_safe_of_wf h2)] at he
  have hsorted := buildQuery_injOn (sorted_safe_of_wf h1) (sorted_safe_of_wf h2) he
  have hperm : (({ u with pairs := pre ++ (k, v) :: post } : UrlInput).pairs.filter
      (fun p => !isTrackingQueryKey p.1)).Perm
      (({ u with pairs := pre ++ (k, v') :: post } : UrlInput).pairs.filter
        (fun p => !isTrackingQueryKey p.1)) := by
    have p1 : (sortPairs (({ u with pairs := pre ++ (k, v) :: post } : UrlInput).pairs.filter
        (fun p => !isTrackingQueryKey p.1))).Perm
        (({ u with pairs := pre ++ (k, v) :: post } : UrlInput).pairs.filter
          (fun p => !isTrackingQueryKey p.1)) :=
      List.perm_insertionSort pairKeyLe _
    have p2 : (sortPairs (({ u with pairs := pre ++ (k, v') :: post } : UrlInput).pairs.filter
        (fun p => !isTrackingQueryKey p.1))).Perm
        (({ u with pairs := pre ++ (k, v') :: post } : UrlInput).pairs.filter
          (fun p => !isTrackingQueryKey p.1)) :=
      List.perm_insertionSort pairKeyLe _
    refine p1.symm.trans ?_
    rw [hsorted]
    exact p2
  have hfil1 : ({ u with pairs := pre ++ (k, v) :: post } : UrlInput).pairs.filter
      (fun p => !isTrackingQueryKey p.1) =
      pre.filter (fun p => !isTrackingQueryKey p.1) ++ (k, v) ::
        post.filter (fun p => !isTrackingQueryKey p.1) := by
    dsimp only
    rw [List.filter_append, List.filter_cons_of_pos (by simp [htr])]
  have hfil2 : ({ u with pairs := pre ++ (k, v') :: post } : UrlInput).pairs.filter
      (fun p => !isTrackingQueryKey p.1) =
      pre.filter (fun p => !isTrackingQueryKey p.1) ++ (k, v') ::
        post.filter (fun p => !isTrackingQueryKey p.1) := by
    dsimp only
    rw [List.filter_append, List.filter_cons_of_pos (by simp [htr])]
  rw [hfil1, hfil2] at hperm
  have hcount := hperm.countP_eq (fun x => decide (x = (k, v)))
  have hne : ((k, v') : List Char × List Char) ≠ (k, v) := by
    intro hee
    exact hvv (congrArg Prod.snd hee).symm
  rw [List.countP_append, List.countP_append, List.countP_cons, List.countP_cons] at hcount
  simp only [decide_eq_true_eq] at hcount
  rw [if_neg hne] at hcount
  simp only [if_pos] at hcount
  omega

/-- Witness for C9 at concrete inputs: `tanaka@example.com` on the screen
masker and error masker, and a short local part keeping one character. -/
theorem C9_mask_laws_witness :
    maskEmail ("tanaka" ++ "@" ++ "example.com") =
      some (String.mk ("tanaka".data.take (if "tanaka".data.length ≤ 3 then 1 else 3)
        ++ ('*' :: '*' :: '*' :: '@' :: "example.com".data)))
    ∧ maskEmailDomainOnly ("tanaka" ++ "@" ++ "example.com") =
      String.mk ('*' :: '*' :: '*' :: '@' :: "example.com".data)
    ∧ maskEmailDomainOnly "no-address-here" = "***" :=
  ⟨C9_mask_laws.1 "tanaka" "example.com" (by decide) (by decide),
   C9_mask_laws.2.1 "tanaka" "example.com" (by decide),
   C9_mask_laws.2.2.1 "no-address-here" (by decide)⟩


theorem sortPairs_ne_nil {ps : List (List Char × List Char)} (h : ps ≠ []) :
    sortPairs ps ≠ [] := by
  intro hnil
  unfold sortPairs at hnil
  have hlen := (List.perm_insertionSort pairKeyLe ps).length_eq
  rw [hnil] at hlen
  exact h (List.length_eq_zero.mp hlen.symm)

theorem canonicalOfParts_sku_ne {u : UrlInput} {pre post : List (List Char × List Char)}
    {k v v' : List Char}
    (h1 : wfUrl { u with pairs := pre ++ (k, v) :: post } = true)
    (h2 : wfUrl { u with pairs := pre ++ (k, v') :: post } = true)
    (htr : isTrackingQueryKey k = false) (hvv : v ≠ v') :
    canonicalOfParts { u with pairs := pre ++ (k, v) :: post } ≠
      canonicalOfParts { u with pairs := pre ++ (k, v') :: post } := by
  intro he
  have hfilne : ∀ w : List Char,
      (({ u with pairs := pre ++ (k, w) :: post } : UrlInput).pairs.filter
        (fun p => !isTrackingQueryKey p.1)) ≠ [] := by
    intro w hnil
    dsimp only at hnil
    rw [List.filter_append, List.filter_cons_of_pos (by simp [htr])] at hnil
    simp at hnil
  have hne1 : (canonicalQuery { u with pairs := pre ++ (k, v) :: post }).isEmpty = false := by
    unfold canonicalQuery
    rw [quotePlus_safe_pairs (sorted_safe_of_wf h1)]
    exact buildQuery_ne_nil (sortPairs_ne_nil (hfilne v))
  have hne2 : (canonicalQuery { u with pairs := pre ++ (k, v') :: post }).isEmpty = false := by
    unfold canonicalQuery
    rw [quotePlus_safe_pairs (sorted_safe_of_wf h2)]
    exact buildQuery_ne_nil (sortPairs_ne_nil (hfilne v'))
  unfold canonicalOfParts at he
  simp only [hne1, hne2, Bool.false_eq_true, if_false] at he
  have hnetv : canonicalNetloc { u with pairs := pre ++ (k, v) :: post } =
      canonicalNetloc u := rfl
  have hnetv2 : canonicalNetloc { u with pairs := pre ++ (k, v') :: post } =
      canonicalNetloc u := rfl
  rw [hnetv, hnetv2] at he
  have hq := List.append_cancel_left he
  simp only [List.cons.injEq, true_and] at hq
  exact canonicalQuery_sku_ne h1 h2 htr hvv hq


/-- C6: for a fixed recipient email, maker code, quantity and key version,
two well-formed product URLs that differ only in URL noise — tracking query
parameters, query-pair order, scheme/host letter case, or an explicit
default port — canonicalize to the same URL under `_normalize_input_url`
and therefore derive equal `request_key` values; changing the value of a
non-tracking query parameter (such as `sku`) changes the hashed payload of
`_build_request_key`; and on the concrete `sku=1` / `sku=2` example the two
`request_key` values differ. -/
theorem C6_request_key_stability :
    (∀ e m q ver : String, ∀ u₁ u₂ : UrlInput,
      wfUrl u₁ = true → wfUrl u₂ = true → urlNoise u₁ u₂ →
      normalizeInputUrl (buildUrl u₁) = normalizeInputUrl (buildUrl u₂) ∧
      buildRequestKey e m (normalizeInputUrl (buildUrl u₁)) q ver =
        buildRequestKey e m (normalizeInputUrl (buildUrl u₂)) q ver)
    ∧ (∀ e m q : String, ∀ u : UrlInput,
        ∀ pre post : List (List Char × List Char), ∀ k v v' : List Char,
      wfUrl { u with pairs := pre ++ (k, v) :: post } = true →
      wfUrl { u with pairs := pre ++ (k, v') :: post } = true →
      isTrackingQueryKey k = false → v ≠ v' →
      requestKeyPayload e m
          (normalizeInputUrl (buildUrl { u with pairs := pre ++ (k, v) :: post })) q ≠
        requestKeyPayload e m
          (normalizeInputUrl (buildUrl { u with pairs := pre ++ (k, v') :: post })) q)
    ∧ buildRequestKey "a@example.com" "code-1" (normalizeInputUrl (buildUrl skuExample1))
        "2" "v2" ≠
      buildRequestKey "a@example.com" "code-1" (normalizeInputUrl (buildUrl skuExample2))
        "2" "v2" := by
  refine ⟨?_, ?_, ?_⟩
  · intro e m q ver u₁ u₂ h1 h2 hn
    have hcanon : normalizeInputUrl (buildUrl u₁) = normalizeInputUrl (buildUrl u₂) := by
      rw [normalizeInputUrl_buildUrl h1, normalizeInputUrl_buildUrl h2,
        canonicalOfParts_noise hn]
    exact ⟨hcanon, by rw [hcanon]⟩
  · intro e m q u pre post k v v' h1 h2 htr hvv heq
    have hurl := requestKeyPayload_url_inj heq
    rw [normalizeInputUrl_buildUrl h1, normalizeInputUrl_buildUrl h2] at hurl
    exact canonicalOfParts_sku_ne h1 h2 htr hvv (congrArg String.data hurl)
  · decide


/-- Witness for C6 at concrete inputs: the noisy URL variant against the
plain `sku=1` URL for noise stability, and the `sku=1` / `sku=2` pair for
payload difference. -/
theorem C6_request_key_stability_witness :
    wfUrl noiseExample = true ∧ wfUrl skuExample1 = true ∧ urlNoise noiseExample skuExample1 ∧
    (normalizeInputUrl (buildUrl noiseExample) = normalizeInputUrl (buildUrl skuExample1) ∧
      buildRequestKey "a@example.com" "code-1" (normalizeInputUrl (buildUrl noiseExample))
          "2" "v2" =
        buildRequestKey "a@example.com" "code-1" (normalizeInputUrl (buildUrl skuExample1))
          "2" "v2") ∧
    (wfUrl { skuExample1 with
        pairs := [] ++ (['s','k','u'], ['1']) :: [(['q','t','y'], ['2'])] } = true ∧
      wfUrl { skuExample1 with
        pairs := [] ++ (['s','k','u'], ['2']) :: [(['q','t','y'], ['2'])] } = true ∧
      isTrackingQueryKey ['s','k','u'] = false ∧ (['1'] : List Char) ≠ ['2'] ∧
      requestKeyPayload "a@example.com" "code-1"
          (normalizeInputUrl (buildUrl { skuExample1 with
            pairs := [] ++ (['s','k','u'], ['1']) :: [(['q','t','y'], ['2'])] })) "2" ≠
        requestKeyPayload "a@example.com" "code-1"
          (normalizeInputUrl (buildUrl { skuExample1 with
            pairs := [] ++ (['s','k','u'], ['2']) :: [(['q','t','y'], ['2'])] })) "2") :=
  ⟨by decide, by decide, ⟨by decide, by decide, by decide, by decide, by decide⟩,
   C6_request_key_stability.1 "a@example.com" "code-1" "2" "v2" noiseExample skuExample1
     (by decide) (by decide) ⟨by decide, by decide, by decide, by decide, by decide⟩,
   by decide, by decide, by decide, by decide,
   C6_request_key_stability.2.1 "a@example.com" "code-1" "2" skuExample1 []
     [(['q','t','y'], ['2'])] ['s','k','u'] ['1'] ['2']
     (by decide) (by decide) (by decide) (by decide)⟩


/-- C2: the orchestrator's transport contract does not exist on the
transport class. `send_bulk` calls `send_mail` with `idempotency_token` and
`body_reconcile_marker` keyword arguments, but `OutlookMailSender.send_mail`
accepts neither; and the UNKNOWN_SENT path calls `reconcile_unknown_send`,
a method `OutlookMailSender` does not define. -/
theorem C2_transport_interface_mismatch :
    sendBulkSendMailKwargs.contains "idempotency_token" = true ∧
    sendBulkSendMailKwargs.contains "body_reconcile_marker" = true ∧
    sendMailParams.contains "idempotency_token" = false ∧
    sendMailParams.contains "body_reconcile_marker" = false ∧
    sendBulkTransportCalls.contains "reconcile_unknown_send" = true ∧
    outlookMailSenderMethods.contains "reconcile_unknown_send" = false := by
  decide

/-- Counterexample to the per-run part of C1: two batch executions by the
same skill instance (one `execution_id`, hence one run id) under the
`confirm` rerun policy with an approving callback record two SENT events
for the same request key and run id while no override row ever exists. -/
theorem C1_per_run_counterexample :
    sentCountRun c1Trace.ledger.history "rq:v2:k1" "run-1" = 2 ∧
    c1Trace.ledger.overrides = [] ∧
    sentCount c1Trace.ledger.history "rq:v2:k1" ≤
      deliveryCount c1Trace.deliveries "rq:v2:k1" := by
  decide

/-- Counterexample to C5 as stated over all SendLedger operations: one
legacy `append_entry` call on an empty ledger records a SENT event that no
IN_PROGRESS or UNKNOWN_SENT event precedes (the history holds exactly that
one event). -/
theorem C5_counterexample :
    c5Ledger.history =
      [{ createdAt := 100, requestKey := "legacy-key", v1Key := "legacy-key",
         keyVersion := "v1", runId := "run-L", status := Status.sent,
         messageId := "MID-L", messageIdSource := "legacy_append_entry",
         sentAt := some 100 }] ∧
    sentPrecededOk c5Ledger.history = false := by
  decide

/-- Counterexample to the exit-code part of C8: an interactive batch whose
only record is skipped with confirmation required (a live foreign
IN_PROGRESS lock) ends with `confirmation_required_count = 1` yet exit code
0, because `main.py` line 859 demands `non_interactive` for exit code 3. -/
theorem C8_exit_code_counterexample :
    c8Run.2.confirmationRequiredCount = 1 ∧
    c8Run.2.results.map (fun r => r.confirmationRequired) = [true] ∧
    c8Run.2.exitCode = 0 ∧
    c8Run.2.success = false := by
  decide


theorem reportOf_facts (ni : Bool) (rs : List RecResult) :
    ((reportOf ni rs).success = true ↔
      (((reportOf ni rs).results.filter (fun r => !r.skipped)).all
          (fun r => r.success) = true ∧
        (reportOf ni rs).results.all (fun r => !r.confirmationRequired) = true)) ∧
    (reportOf ni rs).failureCount =
      (((reportOf ni rs).results.filter (fun r => !r.skipped)).filter
        (fun r => !r.success)).length ∧
    (reportOf ni rs).confirmationRequiredCount =
      ((reportOf ni rs).results.filter (fun r => r.confirmationRequired)).length ∧
    ((reportOf ni rs).exitCode = 3 ↔
      (0 < (reportOf ni rs).confirmationRequiredCount ∧ ni = true)) ∧
    ((reportOf ni rs).exitCode = 0 ∨ (reportOf ni rs).exitCode = 3) := by
  simp only [reportOf]
  refine ⟨?_, trivial, trivial, ?_, ?_⟩
  · simp [List.length_eq_zero, List.filter_eq_nil_iff, List.all_eq_true]
    intro _
    constructor
    · intro h x hx
      rcases Bool.eq_false_or_eq_true x.success with hs | hs
      · exact Or.inr hs
      · exact Or.inl (h x hx hs)
    · intro h x hx hs
      rcases h x hx with hk | hk
      · exact hk
      · rw [hs] at hk
        exact absurd hk (by decide)
  · cases hni : ni with
    | false => simp
    | true =>
      by_cases hc : 0 < (rs.filter (fun r => r.confirmationRequired)).length
      · simp [hc]
      · simp [hc]
  · by_cases hc : (decide (0 < (rs.filter (fun r => r.confirmationRequired)).length)
        && ni) = true
    · rw [if_pos hc]
      right
      rfl
    · rw [if_neg (by simpa using hc)]
      left
      rfl

/-- C8: a batch result reports success exactly when every attempted
(non-skipped) entry succeeded and no entry requires confirmation; the
failure and confirmation counts are those of the result list; and the exit
code is 3 exactly when pending confirmations remain and the caller is
non-interactive, every other outcome exiting 0 — so an interactive batch
with unresolved confirmations exits 0, not 3. -/
theorem C8_success_and_exit_code (cfg : BatchConfig) (w : World)
    (items : List (RecordInput × Oracle × Nat)) (now : Nat) :
    ((runBatch cfg w items now).2.success = true ↔
      (((runBatch cfg w items now).2.results.filter (fun r => !r.skipped)).all
          (fun r => r.success) = true ∧
        (runBatch cfg w items now).2.results.all
          (fun r => !r.confirmationRequired) = true)) ∧
    (runBatch cfg w items now).2.failureCount =
      (((runBatch cfg w items now).2.results.filter (fun r => !r.skipped)).filter
        (fun r => !r.success)).length ∧
    (runBatch cfg w items now).2.confirmationRequiredCount =
      ((runBatch cfg w items now).2.results.filter
        (fun r => r.confirmationRequired)).length ∧
    ((runBatch cfg w items now).2.exitCode = 3 ↔
      (0 < (runBatch cfg w items now).2.confirmationRequiredCount ∧
        cfg.nonInteractive = true)) ∧
    ((runBatch cfg w items now).2.exitCode = 0 ∨
      (runBatch cfg w items now).2.exitCode = 3) := by
  have h : (runBatch cfg w items now).2 = reportOf cfg.nonInteractive
      (runRecords cfg ⟨cleanupOnBatchStart w.ledger cfg.retentionDays
        cfg.rerunWindowHours cfg.unknownSentHoldSec now, [], w.deliveries, []⟩
        items).results := rfl
  rw [h]
  exact reportOf_facts cfg.nonInteractive _


/-- C4: `reserve_send` against an existing lock row for the key returns
`acquired = false` with the reason read off the row's status and expiry
(active while `now < expires_at`) and leaves the ledger unchanged; against
no row it returns `acquired = true` after appending exactly one IN_PROGRESS
lock expiring at `now + max 60 ttl` and one matching IN_PROGRESS event; and
it preserves per-key uniqueness of the lock rows. -/
theorem C4_reserve_send_contract (st : Ledger) (rk v1k kv runId mailKey recipientHash
    idemTok secVer subjNorm : String) (ttlSec now : Nat) :
    (∀ lock, findLockRow st rk = some lock →
      reserveSend st rk v1k kv runId mailKey recipientHash idemTok secVer subjNorm
          ttlSec now =
        (st, ⟨false,
          if lock.status = Status.inProgress then
            if now < lock.expiresAt then "in_progress_active" else "in_progress_expired"
          else if lock.status = Status.unknownSent then
            if now < lock.expiresAt then "unknown_sent_hold_active"
            else "unknown_sent_hold_expired"
          else "lock_conflict"⟩)) ∧
    (findLockRow st rk = none →
      reserveSend st rk v1k kv runId mailKey recipientHash idemTok secVer subjNorm
          ttlSec now =
        ({ events := st.events ++
            [{ createdAt := now, requestKey := rk, v1Key := v1k, keyVersion := kv,
               runId := runId, status := Status.inProgress, messageId := "",
               messageIdSource := "", sentAt := none }],
           locks := st.locks ++
            [{ requestKey := rk, keyVersion := kv, runId := runId,
               status := Status.inProgress, expiresAt := now + max 60 ttlSec,
               updatedAt := now, recipientHash := recipientHash, mailKey := mailKey,
               v1Key := v1k, idempotencyToken := idemTok,
               idempotencySecretVersion := secVer, subjectNorm := subjNorm,
               lastMessageId := "", lastMessageIdSource := "", lastError := "" }],
           overrides := st.overrides,
           history := st.history ++
            [{ createdAt := now, requestKey := rk, v1Key := v1k, keyVersion := kv,
               runId := runId, status := Status.inProgress, messageId := "",
               messageIdSource := "", sentAt := none }] },
         ⟨true, "acquired"⟩)) ∧
    ((st.locks.map (fun l => l.requestKey)).Nodup →
      ((reserveSend st rk v1k kv runId mailKey recipientHash idemTok secVer subjNorm
          ttlSec now).1.locks.map (fun l => l.requestKey)).Nodup) := by
  refine ⟨?_, ?_, ?_⟩
  · intro lock h
    simp only [reserveSend, h]
    split
    · split <;> rfl
    · split
      · split <;> rfl
      · rfl
  · intro h
    simp only [reserveSend, h, insertEvent]
  · intro hnd
    cases hf : findLockRow st rk with
    | some lock =>
      have hst : (reserveSend st rk v1k kv runId mailKey recipientHash idemTok secVer
          subjNorm ttlSec now).1 = st := by
        simp only [reserveSend, hf]
        split
        · split <;> rfl
        · split
          · split <;> rfl
          · rfl
      rw [hst]
      exact hnd
    | none =>
      have hlocks : (reserveSend st rk v1k kv runId mailKey recipientHash idemTok secVer
          subjNorm ttlSec now).1.locks = st.locks ++
          [{ requestKey := rk, keyVersion := kv, runId := runId,
             status := Status.inProgress, expiresAt := now + max 60 ttlSec,
             updatedAt := now, recipientHash := recipientHash, mailKey := mailKey,
             v1Key := v1k, idempotencyToken := idemTok,
             idempotencySecretVersion := secVer, subjectNorm := subjNorm,
             lastMessageId := "", lastMessageIdSource := "", lastError := "" }] := by
        simp only [reserveSend, hf, insertEvent]
      rw [hlocks, List.map_append]
      apply List.Nodup.append hnd (List.nodup_singleton _)
      simp only [List.map_cons, List.map_nil, List.disjoint_singleton]
      intro hmem
      rcases List.mem_map.mp hmem with ⟨l, hl, hlr⟩
      have hne := List.find?_eq_none.mp hf l hl
      simp only [beq_iff_eq] at hne
      exact hne hlr

/-- Witness for C4 at concrete inputs: a held IN_PROGRESS lock refuses with
`in_progress_active` and leaves the state unchanged; a fresh key keeps the
lock keys unique. -/
theorem C4_reserve_send_contract_witness :
    reserveSend lockedWorld.ledger "rq:v2:k1" "v1k1" "v2" "run-1" "mk1" "rh1" "tok1"
        "v1" "subject" 2700 1000 =
      (lockedWorld.ledger, ⟨false, "in_progress_active"⟩) ∧
    ((reserveSend emptyLedger "rq:v2:k1" "v1k1" "v2" "run-1" "mk1" "rh1" "tok1" "v1"
        "subject" 2700 1000).1.locks.map (fun l => l.requestKey)).Nodup :=
  ⟨((C4_reserve_send_contract lockedWorld.ledger "rq:v2:k1" "v1k1" "v2" "run-1" "mk1"
      "rh1" "tok1" "v1" "subject" 2700 1000).1 exLock (by decide)).trans (by decide),
   (C4_reserve_send_contract emptyLedger "rq:v2:k1" "v1k1" "v2" "run-1" "mk1" "rh1"
      "tok1" "v1" "subject" 2700 1000).2.2 (by decide)⟩


theorem find?_append_none {α : Type} (p : α → Bool) (l1 l2 : List α)
    (h : ∀ a ∈ l1, p a = false) : (l1 ++ l2).find? p = l2.find? p := by
  induction l1 with
  | nil => rfl
  | cons a as ih =>
    rw [List.cons_append, List.find?_cons_of_neg _ (by simp [h a (List.mem_cons_self a as)])]
    exact ih (fun b hb => h b (List.mem_cons_of_mem a hb))

theorem getUnknownLock_markUnknownSent (st : Ledger) (rk v1k kv runId mailKey
    recipientHash idemTok secVer subjNorm : String) (holdSec : Nat)
    (msgId msgSrc err : String) (now : Nat) :
    getUnknownLock (markUnknownSent st rk v1k kv runId mailKey recipientHash idemTok
      secVer subjNorm holdSec msgId msgSrc err now) rk =
      some { requestKey := rk, keyVersion := kv, runId := runId,
             status := Status.unknownSent, expiresAt := now + max 300 holdSec,
             updatedAt := now, recipientHash := recipientHash, mailKey := mailKey,
             v1Key := v1k, idempotencyToken := idemTok,
             idempotencySecretVersion := secVer, subjectNorm := subjNorm,
             lastMessageId := msgId, lastMessageIdSource := msgSrc, lastError := err } := by
  unfold markUnknownSent getUnknownLock insertEvent
  dsimp only
  rw [find?_append_none]
  · rw [List.find?_cons_of_pos _ (by simp)]
  · intro a ha
    have hq := List.of_mem_filter ha
    simp only [Bool.not_eq_true'] at hq
    simp [hq]

/-- C3: when the transport send succeeds and the SENT commit raises, the
record's lock is upserted to UNKNOWN_SENT expiring at
`now + max 300 unknown_sent_hold_sec` with `last_message_id` set to the
transport's message id, the history gains the reservation's IN_PROGRESS
event and one UNKNOWN_SENT event carrying the message id, no SENT event is
written, and the recipient result is `unknown_sent_pending` with
confirmation required. -/
theorem C3_unknown_sent_on_commit_failure (cfg : BatchConfig) (s : StepState)
    (r : RecordInput) (o : Oracle) (now : Nat)
    (hlock : findLockRow s.ledger r.requestKey = none)
    (hsend : o.send.success = true) (hcommit : o.commitOk = false) :
    getUnknownLock (stageSend cfg s r o now).ledger r.requestKey =
      some { requestKey := r.requestKey, keyVersion := cfg.dedupeKeyVersion,
             runId := cfg.runId, status := Status.unknownSent,
             expiresAt := now + max 300 cfg.unknownSentHoldSec, updatedAt := now,
             recipientHash := r.recipientHash, mailKey := r.mailKey, v1Key := r.v1Key,
             idempotencyToken := r.idempotencyToken,
             idempotencySecretVersion := cfg.idempotencySecretVersion,
             subjectNorm := cfg.subjectNorm, lastMessageId := o.send.messageId,
             lastMessageIdSource := o.send.messageIdSource,
             lastError := "sent_commit=unknown" } ∧
    (stageSend cfg s r o now).ledger.history = s.ledger.history ++
      [{ createdAt := now, requestKey := r.requestKey, v1Key := r.v1Key,
         keyVersion := cfg.dedupeKeyVersion, runId := cfg.runId,
         status := Status.inProgress, messageId := "", messageIdSource := "",
         sentAt := none },
       { createdAt := now, requestKey := r.requestKey, v1Key := r.v1Key,
         keyVersion := cfg.dedupeKeyVersion, runId := cfg.runId,
         status := Status.unknownSent, messageId := o.send.messageId,
         messageIdSource := o.send.messageIdSource, sentAt := none }] ∧
    (∀ rk, sentCount (stageSend cfg s r o now).ledger.history rk =
      sentCount s.ledger.history rk) ∧
    (stageSend cfg s r o now).results = s.results ++
      [⟨r.email, r.requestKey, false, false, "unknown_sent_pending", true⟩] := by
  refine ⟨?_, ?_, ?_, ?_⟩
  · simp [stageSend, reserveSend, hlock, hsend, hcommit, getUnknownLock_markUnknownSent]
  · simp [stageSend, reserveSend, hlock, hsend, hcommit, markUnknownSent, heartbeat,
      insertEvent]
  · intro rk
    simp [stageSend, reserveSend, hlock, hsend, hcommit, markUnknownSent, heartbeat,
      insertEvent, sentCount, List.countP_append, List.countP_cons]
  · simp [stageSend, reserveSend, hlock, hsend, hcommit]

/-- Witness for C3: a concrete commit-failure run on the empty ledger. -/
theorem C3_unknown_sent_on_commit_failure_witness :
    findLockRow emptyLedger exRecord.requestKey = none ∧
    ({ exOracleOk with commitOk := false } : Oracle).send.success = true ∧
    ({ exOracleOk with commitOk := false } : Oracle).commitOk = false ∧
    getUnknownLock (stageSend exCfgAuto ⟨emptyLedger, [], [], []⟩ exRecord
        { exOracleOk with commitOk := false } 1000).ledger exRecord.requestKey =
      some { requestKey := "rq:v2:k1", keyVersion := "v2", runId := "run-1",
             status := Status.unknownSent, expiresAt := 1000 + max 300 1800,
             updatedAt := 1000, recipientHash := "rh1", mailKey := "mk1",
             v1Key := "v1k1", idempotencyToken := "tok1",
             idempotencySecretVersion := "v1", subjectNorm := "subject",
             lastMessageId := "MID-1", lastMessageIdSource := "direct",
             lastError := "sent_commit=unknown" } ∧
    (stageSend exCfgAuto ⟨emptyLedger, [], [], []⟩ exRecord
        { exOracleOk with commitOk := false } 1000).results =
      [⟨"a@example.com", "rq:v2:k1", false, false, "unknown_sent_pending", true⟩] := by
  have h := C3_unknown_sent_on_commit_failure exCfgAuto ⟨emptyLedger, [], [], []⟩
    exRecord { exOracleOk with commitOk := false } 1000 (by decide) (by decide)
    (by decide)
  exact ⟨by decide, by decide, by decide, h.1.trans (by decide),
    h.2.2.2.trans (by decide)⟩


theorem foldl_some_isSome {α β : Type} (g : Option α → β → α) (l : List β) (a : α) :
    (l.foldl (fun acc e => some (g acc e)) (some a)).isSome = true := by
  induction l generalizing a with
  | nil => rfl
  | cons b bs ih =>
    rw [List.foldl_cons]
    exact ih (g (some a) b)

theorem findRecentSent_isSome {st : Ledger} {rk v1k : String} {wh : Nat}
    {rs : Option String} {now : Nat}
    (h : recentSentMatches st rk v1k wh rs now ≠ []) :
    (findRecentSent st rk v1k wh rs now).isSome = true := by
  unfold findRecentSent
  generalize recentSentMatches st rk v1k wh rs now = l at h ⊢
  cases l with
  | nil => exact absurd rfl h
  | cons a as =>
    rw [List.foldl_cons]
    exact foldl_some_isSome _ as _

/-- C7: a SENT event within the rerun window matching the record's legacy v1
key, with no active override, no unknown lock and no in-run duplicate,
makes the record skip under `rerun_policy_default = auto_skip` (global
scope): one SKIPPED_AUTO event is recorded, the result entry is
`skip_rerun_auto_skip` without confirmation, and the transport is never
reached (the ghost delivery list is unchanged). -/
theorem C7_legacy_v1_key_blocks_resend (cfg : BatchConfig) (s : StepState)
    (r : RecordInput) (o : Oracle) (now : Nat) (e : Event)
    (hpol : cfg.rerunPolicyDefault = "auto_skip") (hscope : cfg.rerunScope = "global")
    (hseen : s.seen.contains r.requestKey = false)
    (hunk : getUnknownLock s.ledger r.requestKey = none)
    (hov : (evaluateOverride s.ledger r.requestKey r.recipientHash now).allowed = false)
    (he : e ∈ s.ledger.events) (hst : e.status = Status.sent)
    (hv1 : e.v1Key = r.v1Key)
    (hwin : now - max 1 cfg.rerunWindowHours * 3600 ≤ e.createdAt) :
    (processRecord cfg s r o now).ledger.history = s.ledger.history ++
      [{ createdAt := now, requestKey := r.requestKey, v1Key := r.v1Key,
         keyVersion := cfg.dedupeKeyVersion, runId := cfg.runId,
         status := Status.skippedAuto, messageId := "", messageIdSource := "",
         sentAt := none }] ∧
    (processRecord cfg s r o now).results = s.results ++
      [⟨r.email, r.requestKey, false, true, "skip_rerun_auto_skip", false⟩] ∧
    (processRecord cfg s r o now).deliveries = s.deliveries := by
  have hmem : e ∈ recentSentMatches s.ledger r.requestKey r.v1Key cfg.rerunWindowHours
      none now := by
    rw [recentSentMatches, List.mem_filter]
    refine ⟨he, ?_⟩
    simp [hst, hv1, hwin]
  have hne : recentSentMatches s.ledger r.requestKey r.v1Key cfg.rerunWindowHours
      none now ≠ [] := fun hnil => by rw [hnil] at hmem; exact absurd hmem (by simp)
  have hsome := findRecentSent_isSome hne
  have hseen2 : r.requestKey ∉ s.seen := by simpa using hseen
  refine ⟨?_, ?_, ?_⟩ <;>
    simp [processRecord, hseen2, hunk, hov, stageRecent, hscope, hpol, hsome,
      markSkipped, insertEvent]

/-- Witness for C7: the recorded legacy SENT event of `legacyWorld` blocks
the fresh v2 record under auto_skip at time 1000. -/
theorem C7_legacy_v1_key_blocks_resend_witness :
    (processRecord exCfgAuto ⟨legacyWorld.ledger, [], [], []⟩ exRecord exOracleOk
        1000).results =
      [⟨"a@example.com", "rq:v2:k1", false, true, "skip_rerun_auto_skip", false⟩] ∧
    (processRecord exCfgAuto ⟨legacyWorld.ledger, [], [], []⟩ exRecord exOracleOk
        1000).deliveries = [] := by
  have h := C7_legacy_v1_key_blocks_resend exCfgAuto ⟨legacyWorld.ledger, [], [], []⟩
    exRecord exOracleOk 1000 exLegacySent rfl rfl (by decide) (by decide) (by decide)
    (by decide) rfl rfl (by decide)
  exact ⟨h.2.1.trans (by decide), h.2.2.trans (by decide)⟩


/-- C10: the gating code of `execute` does evaluate the safety checks
against the final recipient records — their evaluation closes the gate
reason list even when `recipients_changed = false`, and appears twice when
`true` — but the blocked outcome the claim describes is unreachable against
the repository's own collaborators: the blocked branch calls
`write_audit_log` with a `workflow_context` keyword that
`AuditLogger.write_audit_log` does not accept, so a `TypeError` propagates
before `move_to_error`; the approved auto path likewise passes
`workflow_context` to `send_bulk`, which has no such parameter. -/
theorem C10_workflow_blocked_path_type_error :
    (∀ (inp : WfInput) (led : Ledger) (domainOk : String → Bool)
      (norm : String → String) (keys : String → String × String)
      (wh : Nat) (rs : Option String) (now : Nat),
      ∃ pre, wfGateReasons inp led domainOk norm keys wh rs now =
        pre ++ reEvaluateSafety led domainOk norm keys wh rs now
          (wfFinalRecords norm inp)) ∧
    (∀ (inp : WfInput) (led : Ledger) (domainOk : String → Bool)
      (norm : String → String) (keys : String → String × String)
      (wh : Nat) (rs : Option String) (now : Nat),
      ∃ pre, wfGateReasons { inp with recipientsChanged := true } led domainOk norm
          keys wh rs now =
        pre ++ reEvaluateSafety led domainOk norm keys wh rs now
            (wfFinalRecords norm { inp with recipientsChanged := true }) ++
          reEvaluateSafety led domainOk norm keys wh rs now
            (wfFinalRecords norm { inp with recipientsChanged := true })) ∧
    wfBlockedAuditKwargs.contains "workflow_context" = true ∧
    writeAuditLogParams.contains "workflow_context" = false ∧
    wfAutoSendBulkKwargs.contains "workflow_context" = true ∧
    sendBulkParams.contains "workflow_context" = false := by
  refine ⟨?_, ?_, by decide, by decide, by decide, by decide⟩
  · intro inp led domainOk norm keys wh rs now
    refine ⟨wfInitialReasons inp ++ (if inp.recipientsChanged then
      reEvaluateSafety led domainOk norm keys wh rs now (wfFinalRecords norm inp)
      else []), ?_⟩
    simp [wfGateReasons]
  · intro inp led domainOk norm keys wh rs now
    refine ⟨wfInitialReasons { inp with recipientsChanged := true }, ?_⟩
    simp [wfGateReasons, List.append_assoc]


theorem countP_congr_eq {α : Type} (p q : α → Bool) (l : List α)
    (h : ∀ a ∈ l, p a = q a) : l.countP p = l.countP q := by
  induction l with
  | nil => rfl
  | cons a as ih =>
    rw [List.countP_cons, List.countP_cons, h a (List.mem_cons_self a as),
      ih (fun b hb => h b (List.mem_cons_of_mem a hb))]

theorem countP_filter_eq {α : Type} (p q : α → Bool) (l : List α) :
    (l.filter q).countP p = l.countP (fun a => p a && q a) := by
  induction l with
  | nil => rfl
  | cons a as ih =>
    by_cases hq : q a = true
    · rw [List.filter_cons_of_pos hq, List.countP_cons, List.countP_cons, ih, hq]
      simp
    · rw [List.filter_cons_of_neg (by simp [hq]), List.countP_cons, ih]
      have : (p a && q a) = false := by
        rw [Bool.eq_false_iff.mpr hq, Bool.and_false]
      rw [this]
      simp

theorem sentCount_append (h l : List Event) (k : String) :
    sentCount (h ++ l) k = sentCount h k + sentCount l k :=
  List.countP_append _ _ _

theorem sentCount_single_nonSent (e : Event) (k : String) (he : e.status ≠ Status.sent) :
    sentCount [e] k = 0 := by
  unfold sentCount
  rw [List.countP_cons]
  simp [he]

theorem unknownLockCount_append (l1 l2 : List Lock) (k : String) :
    unknownLockCount (l1 ++ l2) k = unknownLockCount l1 k + unknownLockCount l2 k :=
  List.countP_append _ _ _

theorem unknownLockCount_filter_ne (locks : List Lock) (rk k : String) (hk : k ≠ rk) :
    unknownLockCount (locks.filter (fun l => !(l.requestKey == rk))) k =
      unknownLockCount locks k := by
  unfold unknownLockCount
  rw [countP_filter_eq]
  apply countP_congr_eq
  intro a _
  by_cases ha : a.requestKey = k
  · have : (a.requestKey == rk) = false := by
      simp [ha]
      exact hk
    simp [this]
  · have : (a.requestKey == k) = false := by simp [ha]
    simp [this]

theorem unknownLockCount_filter_self (locks : List Lock) (rk : String) :
    unknownLockCount (locks.filter (fun l => !(l.requestKey == rk))) rk = 0 := by
  unfold unknownLockCount
  rw [countP_filter_eq]
  rw [show (fun (a : Lock) => (decide (a.status = Status.unknownSent) &&
      a.requestKey == rk) && !(a.requestKey == rk)) = fun a => false from ?_]
  · exact congrFun List.countP_false locks
  · funext a
    by_cases ha : (a.requestKey == rk) = true
    · simp [ha]
    · simp [ha]

theorem unknownLockCount_le_filter (p : Lock → Bool) (locks : List Lock) (k : String) :
    unknownLockCount (locks.filter p) k ≤ unknownLockCount locks k :=
  (List.filter_sublist locks).countP_le _


theorem unknownLockCount_append_nonUnknown (locks : List Lock) (lk : Lock) (k : String)
    (h : lk.status ≠ Status.unknownSent) :
    unknownLockCount (locks ++ [lk]) k = unknownLockCount locks k := by
  rw [unknownLockCount_append]
  have h0 : unknownLockCount [lk] k = 0 := by
    unfold unknownLockCount
    simp [h]
  rw [h0, Nat.add_zero]

theorem phi_insertEvent_nonSent (st : Ledger) (e : Event) (k : String)
    (he : e.status ≠ Status.sent) : phi (insertEvent st e) k = phi st k := by
  unfold phi insertEvent
  dsimp only
  rw [sentCount_append, sentCount_single_nonSent e k he]
  omega

theorem phi_markSkipped (st : Ledger) (rk v1k kv runId : String) (status : Status)
    (now : Nat) (k : String) (hs : status ≠ Status.sent) :
    phi (markSkipped st rk v1k kv runId status now) k = phi st k := by
  unfold markSkipped
  exact phi_insertEvent_nonSent _ _ _ hs

theorem reserveSend_fst_of_some (st : Ledger) (rk v1k kv runId mailKey recipientHash
    idemTok secVer subjNorm : String) (ttlSec now : Nat) (lock : Lock)
    (hf : findLockRow st rk = some lock) :
    (reserveSend st rk v1k kv runId mailKey recipientHash idemTok secVer subjNorm
      ttlSec now).1 = st := by
  simp only [reserveSend, hf]
  split
  · split <;> rfl
  · split
    · split <;> rfl
    · rfl

theorem phi_reserveSend (st : Ledger) (rk v1k kv runId mailKey recipientHash
    idemTok secVer subjNorm : String) (ttlSec now : Nat) (k : String) :
    phi (reserveSend st rk v1k kv runId mailKey recipientHash idemTok secVer subjNorm
      ttlSec now).1 k = phi st k := by
  cases hf : findLockRow st rk with
  | some lock =>
    rw [reserveSend_fst_of_some st rk v1k kv runId mailKey recipientHash idemTok secVer
      subjNorm ttlSec now lock hf]
  | none =>
    simp only [reserveSend, hf]
    rw [phi_insertEvent_nonSent]
    · unfold phi
      dsimp only
      rw [unknownLockCount_append_nonUnknown]
      simp
    · simp

theorem phi_heartbeat (st : Ledger) (rk : String) (ttlSec now : Nat) (k : String) :
    phi (heartbeat st rk ttlSec now) k = phi st k := by
  unfold phi heartbeat
  dsimp only
  congr 1
  unfold unknownLockCount
  rw [List.countP_map]
  apply countP_congr_eq
  intro a _
  simp only [Function.comp]
  split
  · rfl
  · rfl

theorem phi_markFailedPreSend (st : Ledger) (rk v1k kv runId : String) (now : Nat)
    (k : String) : phi (markFailedPreSend st rk v1k kv runId now) k ≤ phi st k := by
  unfold markFailedPreSend
  rw [phi_insertEvent_nonSent]
  · unfold phi
    dsimp only
    exact Nat.add_le_add_left (unknownLockCount_le_filter _ _ _) _
  · simp


theorem sentCount_single_sent (e : Event) (k : String) (he : e.status = Status.sent)
    (hk : e.requestKey = k) : sentCount [e] k = 1 := by
  unfold sentCount
  simp [he, hk]

theorem sentCount_single_keyne (e : Event) (k : String) (hk : e.requestKey ≠ k) :
    sentCount [e] k = 0 := by
  unfold sentCount
  simp [hk]

theorem unknownLockCount_single_unknown (lk : Lock) (k : String)
    (hs : lk.status = Status.unknownSent) (hk : lk.requestKey = k) :
    unknownLockCount [lk] k = 1 := by
  unfold unknownLockCount
  simp [hs, hk]

theorem unknownLockCount_single_keyne (lk : Lock) (k : String) (hk : lk.requestKey ≠ k) :
    unknownLockCount [lk] k = 0 := by
  unfold unknownLockCount
  simp [hk]

theorem phi_markSent (st : Ledger) (rk v1k kv runId msgId msgSrc : String)
    (sentTs : Nat) (k : String) :
    phi (markSent st rk v1k kv runId msgId msgSrc sentTs) k =
      if k = rk then sentCount st.history rk + 1 else phi st k := by
  by_cases hk : k = rk
  · rw [if_pos hk]
    subst hk
    unfold markSent phi insertEvent
    dsimp only
    rw [sentCount_append, unknownLockCount_filter_self, sentCount_single_sent]
    all_goals first | rfl | omega
  · rw [if_neg hk]
    unfold markSent phi insertEvent
    dsimp only
    rw [sentCount_append, sentCount_single_keyne, unknownLockCount_filter_ne _ _ _ hk]
    all_goals first | omega | exact fun h => hk h.symm

theorem phi_markUnknownSent (st : Ledger) (rk v1k kv runId mailKey recipientHash
    idemTok secVer subjNorm : String) (holdSec : Nat) (msgId msgSrc err : String)
    (now : Nat) (k : String) :
    phi (markUnknownSent st rk v1k kv runId mailKey recipientHash idemTok secVer
        subjNorm holdSec msgId msgSrc err now) k =
      if k = rk then sentCount st.history rk + 1 else phi st k := by
  by_cases hk : k = rk
  · rw [if_pos hk]
    subst hk
    unfold markUnknownSent phi insertEvent
    dsimp only
    rw [sentCount_append, unknownLockCount_append, unknownLockCount_filter_self,
      sentCount_single_nonSent, unknownLockCount_single_unknown]
    all_goals first | rfl | omega | simp
  · rw [if_neg hk]
    unfold markUnknownSent phi insertEvent
    dsimp only
    rw [sentCount_append, unknownLockCount_append,
      unknownLockCount_filter_ne _ _ _ hk, sentCount_single_nonSent,
      unknownLockCount_single_keyne]
    all_goals first | omega | exact fun h => hk h.symm | simp
  
theorem phi_markReconciledSent (st : Ledger) (rk runId msgId msgSrc : String)
    (now : Nat) (k : String) :
    phi (markReconciledSent st rk runId msgId msgSrc now) k ≤ phi st k := by
  unfold markReconciledSent
  cases hu : getUnknownLock st rk with
  | none => exact Nat.le_refl _
  | some lock =>
    rw [phi_markSent]
    by_cases hk : k = rk
    · rw [if_pos hk]
      subst hk
      have hmem := List.mem_of_find?_eq_some hu
      have hp := List.find?_some hu
      simp only [Bool.and_eq_true, beq_iff_eq, decide_eq_true_eq] at hp
      have hone : 0 < unknownLockCount st.locks k := by
        unfold unknownLockCount
        rw [List.countP_pos]
        exact ⟨lock, hmem, by simp [hp.1, hp.2]⟩
      unfold phi
      omega
    · rw [if_neg hk]


theorem deliveryCount_append_single (ds : List String) (x k : String) :
    deliveryCount (ds ++ [x]) k = deliveryCount ds k + (if x = k then 1 else 0) := by
  unfold deliveryCount
  rw [List.countP_append]
  congr 1
  by_cases hx : x = k
  · simp [hx]
  · simp [hx]

theorem sentCount_reserveSend (st : Ledger) (rk v1k kv runId mailKey recipientHash
    idemTok secVer subjNorm : String) (ttlSec now : Nat) (k : String) :
    sentCount (reserveSend st rk v1k kv runId mailKey recipientHash idemTok secVer
      subjNorm ttlSec now).1.history k = sentCount st.history k := by
  cases hf : findLockRow st rk with
  | some lock =>
    rw [reserveSend_fst_of_some st rk v1k kv runId mailKey recipientHash idemTok secVer
      subjNorm ttlSec now lock hf]
  | none =>
    simp only [reserveSend, hf, insertEvent]
    try dsimp only
    rw [sentCount_append, sentCount_single_nonSent]
    · omega
    · simp

theorem stageSend_phi (cfg : BatchConfig) (s : StepState) (r : RecordInput) (o : Oracle)
    (now : Nat) (k : String) :
    phi (stageSend cfg s r o now).ledger k + deliveryCount s.deliveries k ≤
      phi s.ledger k + deliveryCount (stageSend cfg s r o now).deliveries k := by
  unfold stageSend
  rcases hrs : reserveSend s.ledger r.requestKey r.v1Key cfg.dedupeKeyVersion cfg.runId
    r.mailKey r.recipientHash r.idempotencyToken cfg.idempotencySecretVersion
    cfg.subjectNorm cfg.inProgressTtlSec now with ⟨led, res⟩
  have hled : phi led k = phi s.ledger k := by
    have h := phi_reserveSend s.ledger r.requestKey r.v1Key cfg.dedupeKeyVersion
      cfg.runId r.mailKey r.recipientHash r.idempotencyToken
      cfg.idempotencySecretVersion cfg.subjectNorm cfg.inProgressTtlSec now k
    rw [hrs] at h
    exact h
  have hsent : sentCount led.history k = sentCount s.ledger.history k := by
    have h := sentCount_reserveSend s.ledger r.requestKey r.v1Key cfg.dedupeKeyVersion
      cfg.runId r.mailKey r.recipientHash r.idempotencyToken
      cfg.idempotencySecretVersion cfg.subjectNorm cfg.inProgressTtlSec now k
    rw [hrs] at h
    exact h
  have hhb : phi (heartbeat led r.requestKey cfg.dedupeHeartbeatSec now) k =
      phi s.ledger k := by
    rw [phi_heartbeat, hled]
  have hhbh : (heartbeat led r.requestKey cfg.dedupeHeartbeatSec now).history =
      led.history := rfl
  cases hacq : res.acquired with
  | false =>
    simp only [hacq, Bool.not_false, if_true]
    try dsimp only
    rw [phi_markSkipped]
    · omega
    · simp
  | true =>
    simp only [hacq, Bool.not_true, Bool.false_eq_true, if_false]
    cases hsend : o.send.success with
    | false =>
      simp only [Bool.false_eq_true, if_false]
      try dsimp only
      have hle := phi_markFailedPreSend (heartbeat led r.requestKey
        cfg.dedupeHeartbeatSec now) r.requestKey r.v1Key cfg.dedupeKeyVersion
        cfg.runId now k
      rw [hhb] at hle
      omega
    | true =>
      simp only [if_true]
      cases hcommit : o.commitOk with
      | true =>
        simp only [if_true]
        try dsimp only
        rw [phi_markSent, deliveryCount_append_single]
        by_cases hk : k = r.requestKey
        · rw [if_pos hk, if_pos hk.symm, hhbh]
          subst hk
          unfold phi at hled hhb ⊢
          omega
        · rw [if_neg hk, if_neg (fun h => hk h.symm), hhb]
          omega
      | false =>
        simp only [Bool.false_eq_true, if_false]
        try dsimp only
        rw [phi_markUnknownSent, deliveryCount_append_single]
        by_cases hk : k = r.requestKey
        · rw [if_pos hk, if_pos hk.symm, hhbh]
          subst hk
          unfold phi at hled hhb ⊢
          omega
        · rw [if_neg hk, if_neg (fun h => hk h.symm), hhb]
          omega


theorem stageRecent_phi (cfg : BatchConfig) (s : StepState) (r : RecordInput)
    (o : Oracle) (now : Nat) (allowed : Bool) (k : String) :
    phi (stageRecent cfg s r o now allowed).ledger k + deliveryCount s.deliveries k ≤
      phi s.ledger k +
        deliveryCount (stageRecent cfg s r o now allowed).deliveries k := by
  simp only [stageRecent]
  repeat' split
  all_goals
    first
      | exact stageSend_phi cfg s r o now k
      | (rw [phi_markSkipped] <;> first | omega | decide)

theorem processRecord_phi (cfg : BatchConfig) (s : StepState) (r : RecordInput)
    (o : Oracle) (now : Nat) (k : String) :
    phi (processRecord cfg s r o now).ledger k + deliveryCount s.deliveries k ≤
      phi s.ledger k + deliveryCount (processRecord cfg s r o now).deliveries k := by
  simp only [processRecord]
  split
  · rw [phi_markSkipped] <;> first | omega | decide
  · split
    · split
      · rw [phi_markSkipped] <;>
          first
            | exact Nat.add_le_add_right (phi_markReconciledSent _ _ _ _ _ _ _) _
            | decide
      · rw [phi_markSkipped] <;> first | omega | decide
    · exact stageRecent_phi cfg _ r o now _ k


theorem sub_insertEvent {st : Ledger} {e : Event}
    (h : st.events.Sublist st.history) :
    (insertEvent st e).events.Sublist (insertEvent st e).history :=
  List.Sublist.append h (List.Sublist.refl [e])

theorem sub_markSkipped {st : Ledger} {rk v1k kv runId : String} {status : Status}
    {now : Nat} (h : st.events.Sublist st.history) :
    (markSkipped st rk v1k kv runId status now).events.Sublist
      (markSkipped st rk v1k kv runId status now).history :=
  sub_insertEvent h

theorem sub_markSent {st : Ledger} {rk v1k kv runId msgId msgSrc : String} {ts : Nat}
    (h : st.events.Sublist st.history) :
    (markSent st rk v1k kv runId msgId msgSrc ts).events.Sublist
      (markSent st rk v1k kv runId msgId msgSrc ts).history :=
  List.Sublist.append h (List.Sublist.refl _)

theorem sub_markFailedPreSend {st : Ledger} {rk v1k kv runId : String} {now : Nat}
    (h : st.events.Sublist st.history) :
    (markFailedPreSend st rk v1k kv runId now).events.Sublist
      (markFailedPreSend st rk v1k kv runId now).history :=
  List.Sublist.append h (List.Sublist.refl _)

theorem sub_markUnknownSent {st : Ledger} {rk v1k kv runId mailKey recipientHash
    idemTok secVer subjNorm : String} {holdSec : Nat} {msgId msgSrc err : String}
    {now : Nat} (h : st.events.Sublist st.history) :
    (markUnknownSent st rk v1k kv runId mailKey recipientHash idemTok secVer subjNorm
      holdSec msgId msgSrc err now).events.Sublist
      (markUnknownSent st rk v1k kv runId mailKey recipientHash idemTok secVer subjNorm
        holdSec msgId msgSrc err now).history :=
  List.Sublist.append h (List.Sublist.refl _)

theorem sub_markReconciledSent {st : Ledger} {rk runId msgId msgSrc : String}
    {now : Nat} (h : st.events.Sublist st.history) :
    (markReconciledSent st rk runId msgId msgSrc now).events.Sublist
      (markReconciledSent st rk runId msgId msgSrc now).history := by
  unfold markReconciledSent
  cases getUnknownLock st rk with
  | none => exact h
  | some lock => exact sub_markSent h

theorem sub_reserveSend {st : Ledger} {rk v1k kv runId mailKey recipientHash idemTok
    secVer subjNorm : String} {ttlSec now : Nat}
    (h : st.events.Sublist st.history) :
    (reserveSend st rk v1k kv runId mailKey recipientHash idemTok secVer subjNorm
      ttlSec now).1.events.Sublist
      (reserveSend st rk v1k kv runId mailKey recipientHash idemTok secVer subjNorm
        ttlSec now).1.history := by
  cases hf : findLockRow st rk with
  | some lock =>
    rw [reserveSend_fst_of_some st rk v1k kv runId mailKey recipientHash idemTok secVer
      subjNorm ttlSec now lock hf]
    exact h
  | none =>
    simp only [reserveSend, hf]
    exact sub_insertEvent h

theorem sub_cleanup {st : Ledger} {a b c d : Nat} (h : st.events.Sublist st.history) :
    (cleanupOnBatchStart st a b c d).events.Sublist
      (cleanupOnBatchStart st a b c d).history :=
  (List.filter_sublist _).trans h

theorem stageSend_sub {cfg : BatchConfig} {s : StepState} {r : RecordInput}
    {o : Oracle} {now : Nat} (h : s.ledger.events.Sublist s.ledger.history) :
    (stageSend cfg s r o now).ledger.events.Sublist
      (stageSend cfg s r o now).ledger.history := by
  simp only [stageSend]
  repeat' split
  all_goals
    first
      | exact sub_markSkipped (sub_reserveSend h)
      | exact sub_markSent (sub_reserveSend h)
      | exact sub_markUnknownSent (sub_reserveSend h)
      | exact sub_markFailedPreSend (sub_reserveSend h)

theorem stageRecent_sub {cfg : BatchConfig} {s : StepState} {r : RecordInput}
    {o : Oracle} {now : Nat} {allowed : Bool}
    (h : s.ledger.events.Sublist s.ledger.history) :
    (stageRecent cfg s r o now allowed).ledger.events.Sublist
      (stageRecent cfg s r o now allowed).ledger.history := by
  simp only [stageRecent]
  repeat' split
  all_goals
    first
      | exact stageSend_sub h
      | exact sub_markSkipped h

theorem processRecord_sub {cfg : BatchConfig} {s : StepState} {r : RecordInput}
    {o : Oracle} {now : Nat} (h : s.ledger.events.Sublist s.ledger.history) :
    (processRecord cfg s r o now).ledger.events.Sublist
      (processRecord cfg s r o now).ledger.history := by
  simp only [processRecord]
  split
  · exact sub_markSkipped h
  · split
    · split
      · exact sub_markSkipped (sub_markReconciledSent h)
      · exact sub_markSkipped h
    · exact stageRecent_sub h


theorem sentCount_insert_nonSent {st : Ledger} {e : Event} (k : String)
    (he : e.status ≠ Status.sent) :
    sentCount (insertEvent st e).history k = sentCount st.history k := by
  unfold insertEvent
  dsimp only
  rw [sentCount_append, sentCount_single_nonSent e k he]
  omega

theorem sentCount_markSkipped_hist {st : Ledger} {rk v1k kv runId : String}
    {status : Status} {now : Nat} (k : String) (hs : status ≠ Status.sent) :
    sentCount (markSkipped st rk v1k kv runId status now).history k =
      sentCount st.history k :=
  sentCount_insert_nonSent k hs

theorem sentCount_markSent_hist {st : Ledger} {rk v1k kv runId msgId msgSrc : String}
    {ts : Nat} (k : String) :
    sentCount (markSent st rk v1k kv runId msgId msgSrc ts).history k =
      sentCount st.history k + (if k = rk then 1 else 0) := by
  unfold markSent insertEvent
  dsimp only
  rw [sentCount_append]
  congr 1
  by_cases hk : k = rk
  · rw [if_pos hk, sentCount_single_sent _ _ rfl hk.symm]
  · rw [if_neg hk, sentCount_single_keyne]
    exact fun hh => hk hh.symm

theorem sentCount_markUnknown_hist {st : Ledger} {rk v1k kv runId mailKey
    recipientHash idemTok secVer subjNorm : String} {holdSec : Nat}
    {msgId msgSrc err : String} {now : Nat} (k : String) :
    sentCount (markUnknownSent st rk v1k kv runId mailKey recipientHash idemTok secVer
      subjNorm holdSec msgId msgSrc err now).history k = sentCount st.history k :=
  sentCount_insert_nonSent k (by simp)

theorem sentCount_markFailed_hist {st : Ledger} {rk v1k kv runId : String} {now : Nat}
    (k : String) :
    sentCount (markFailedPreSend st rk v1k kv runId now).history k =
      sentCount st.history k :=
  sentCount_insert_nonSent k (by simp)

theorem sentCount_heartbeat_hist {st : Ledger} {rk : String} {t n : Nat} (k : String) :
    sentCount (heartbeat st rk t n).history k = sentCount st.history k := rfl

theorem sentCount_markReconciledSent_le {st : Ledger} {rk runId msgId msgSrc : String}
    {now : Nat} (k : String) :
    sentCount (markReconciledSent st rk runId msgId msgSrc now).history k ≤
      sentCount st.history k + (if k = rk then 1 else 0) := by
  unfold markReconciledSent
  cases getUnknownLock st rk with
  | none => exact Nat.le_add_right _ _
  | some lock =>
    rw [sentCount_markSent_hist]

theorem stageSend_sent_le (cfg : BatchConfig) (s : StepState) (r : RecordInput)
    (o : Oracle) (now : Nat) (k : String) :
    sentCount (stageSend cfg s r o now).ledger.history k ≤
      sentCount s.ledger.history k + (if k = r.requestKey then 1 else 0) := by
  generalize hind : (if k = r.requestKey then 1 else 0) = ind
  simp only [stageSend]
  repeat' split
  any_goals dsimp only
  all_goals
    first
      | (rw [sentCount_markSkipped_hist k (by decide), sentCount_reserveSend]; try omega)
      | (rw [sentCount_markSent_hist, sentCount_heartbeat_hist, sentCount_reserveSend, hind]; try omega)
      | (rw [sentCount_markUnknown_hist, sentCount_heartbeat_hist, sentCount_reserveSend]; try omega)
      | (rw [sentCount_markFailed_hist, sentCount_heartbeat_hist, sentCount_reserveSend]; try omega)

theorem stageRecent_sent_le (cfg : BatchConfig) (s : StepState) (r : RecordInput)
    (o : Oracle) (now : Nat) (allowed : Bool) (k : String) :
    sentCount (stageRecent cfg s r o now allowed).ledger.history k ≤
      sentCount s.ledger.history k + (if k = r.requestKey then 1 else 0) := by
  generalize hind : (if k = r.requestKey then 1 else 0) = ind
  simp only [stageRecent]
  repeat' split
  any_goals dsimp only
  all_goals
    first
      | exact hind ▸ stageSend_sent_le cfg s r o now k
      | (rw [sentCount_markSkipped_hist k (by decide)]; try omega)

theorem processRecord_sent_le (cfg : BatchConfig) (s : StepState) (r : RecordInput)
    (o : Oracle) (now : Nat) (k : String) :
    sentCount (processRecord cfg s r o now).ledger.history k ≤
      sentCount s.ledger.history k + (if k = r.requestKey then 1 else 0) := by
  generalize hind : (if k = r.requestKey then 1 else 0) = ind
  simp only [processRecord]
  split
  · rw [sentCount_markSkipped_hist k (by decide)]
    omega
  · split
    · split
      · rw [sentCount_markSkipped_hist k (by decide)]
        exact hind ▸ sentCount_markReconciledSent_le k
      · rw [sentCount_markSkipped_hist k (by decide)]
        omega
    · exact hind ▸ stageRecent_sent_le cfg _ r o now _ k


theorem stageSend_seen (cfg : BatchConfig) (s : StepState) (r : RecordInput)
    (o : Oracle) (now : Nat) : (stageSend cfg s r o now).seen = s.seen := by
  simp only [stageSend]
  repeat' split
  all_goals rfl

theorem stageRecent_seen (cfg : BatchConfig) (s : StepState) (r : RecordInput)
    (o : Oracle) (now : Nat) (allowed : Bool) :
    (stageRecent cfg s r o now allowed).seen = s.seen := by
  simp only [stageRecent]
  repeat' split
  all_goals first | rfl | exact stageSend_seen cfg s r o now

theorem processRecord_sent_dup (cfg : BatchConfig) (s : StepState) (r : RecordInput)
    (o : Oracle) (now : Nat) (k : String) (hd : s.seen.contains r.requestKey = true) :
    sentCount (processRecord cfg s r o now).ledger.history k =
      sentCount s.ledger.history k ∧
    (processRecord cfg s r o now).seen = s.seen := by
  simp only [processRecord]
  rw [if_pos hd]
  exact ⟨sentCount_markSkipped_hist k (by decide), rfl⟩

theorem processRecord_seen_add (cfg : BatchConfig) (s : StepState) (r : RecordInput)
    (o : Oracle) (now : Nat) (hd : s.seen.contains r.requestKey = false) :
    (processRecord cfg s r o now).seen = s.seen ++ [r.requestKey] := by
  simp only [processRecord]
  rw [if_neg (by simpa using hd)]
  split
  · split
    · rfl
    · rfl
  · rw [stageRecent_seen]

theorem processRecord_seen (cfg : BatchConfig) (s : StepState) (r : RecordInput)
    (o : Oracle) (now : Nat) :
    (processRecord cfg s r o now).seen = s.seen ∨
    (processRecord cfg s r o now).seen = s.seen ++ [r.requestKey] := by
  cases hcc : s.seen.contains r.requestKey with
  | true => exact Or.inl (processRecord_sent_dup cfg s r o now "" hcc).2
  | false => exact Or.inr (processRecord_seen_add cfg s r o now hcc)

theorem runRecords_phi (cfg : BatchConfig) (items : List (RecordInput × Oracle × Nat))
    (s : StepState) (k : String)
    (h : phi s.ledger k ≤ deliveryCount s.deliveries k) :
    phi (runRecords cfg s items).ledger k ≤
      deliveryCount (runRecords cfg s items).deliveries k := by
  induction items generalizing s with
  | nil => exact h
  | cons it rest ih =>
    rcases it with ⟨r, o, t⟩
    exact ih (processRecord cfg s r o t)
      (by have := processRecord_phi cfg s r o t k; omega)

theorem runRecords_sub (cfg : BatchConfig) (items : List (RecordInput × Oracle × Nat))
    (s : StepState) (h : s.ledger.events.Sublist s.ledger.history) :
    (runRecords cfg s items).ledger.events.Sublist
      (runRecords cfg s items).ledger.history := by
  induction items generalizing s with
  | nil => exact h
  | cons it rest ih =>
    rcases it with ⟨r, o, t⟩
    exact ih (processRecord cfg s r o t) (processRecord_sub h)

theorem runRecords_sent_le (cfg : BatchConfig)
    (items : List (RecordInput × Oracle × Nat)) (s : StepState) (k : String) (B : Nat)
    (h : sentCount s.ledger.history k ≤ B + (if k ∈ s.seen then 1 else 0)) :
    sentCount (runRecords cfg s items).ledger.history k ≤ B + 1 := by
  induction items generalizing s with
  | nil =>
    simp only [runRecords]
    by_cases hk : k ∈ s.seen
    · rw [if_pos hk] at h
      exact h
    · rw [if_neg hk] at h
      omega
  | cons it rest ih =>
    rcases it with ⟨r, o, t⟩
    apply ih
    by_cases hks : k ∈ s.seen
    · rw [if_pos hks] at h
      by_cases hkr : k = r.requestKey
      · have hd := processRecord_sent_dup cfg s r o t k
          (by simpa using (hkr ▸ hks : r.requestKey ∈ s.seen))
        rw [hd.1, hd.2, if_pos hks]
        exact h
      · have hle := processRecord_sent_le cfg s r o t k
        rw [if_neg hkr] at hle
        rcases processRecord_seen cfg s r o t with hs | hs
        · rw [hs, if_pos hks]
          omega
        · rw [hs, if_pos (List.mem_append_left _ hks)]
          omega
    · rw [if_neg hks] at h
      have hle := processRecord_sent_le cfg s r o t k
      by_cases hkr : k = r.requestKey
      · rw [if_pos hkr] at hle
        have hadd := processRecord_seen_add cfg s r o t
          (by simpa using (hkr ▸ hks : r.requestKey ∉ s.seen))
        rw [hadd, if_pos (show k ∈ s.seen ++ [r.requestKey] by
          rw [hkr]; exact List.mem_append_right _ (List.mem_singleton_self _))]
        omega
      · rw [if_neg hkr] at hle
        refine le_trans (by omega) (Nat.le_add_right B _)


theorem phi_cleanup (st : Ledger) (a b c d : Nat) (k : String) :
    phi (cleanupOnBatchStart st a b c d) k ≤ phi st k := by
  unfold phi cleanupOnBatchStart
  dsimp only
  exact Nat.add_le_add_left (unknownLockCount_le_filter _ _ _) _

theorem runBatch_phi (cfg : BatchConfig) (w : World)
    (items : List (RecordInput × Oracle × Nat)) (now : Nat) (k : String)
    (h : phi w.ledger k ≤ deliveryCount w.deliveries k) :
    phi (runBatch cfg w items now).1.ledger k ≤
      deliveryCount (runBatch cfg w items now).1.deliveries k := by
  simp only [runBatch]
  apply runRecords_phi
  exact le_trans (phi_cleanup _ _ _ _ _ k) h

theorem runBatch_sub (cfg : BatchConfig) (w : World)
    (items : List (RecordInput × Oracle × Nat)) (now : Nat)
    (h : w.ledger.events.Sublist w.ledger.history) :
    (runBatch cfg w items now).1.ledger.events.Sublist
      (runBatch cfg w items now).1.ledger.history := by
  simp only [runBatch]
  apply runRecords_sub
  exact sub_cleanup h

theorem runBatch_sent_le (cfg : BatchConfig) (w : World)
    (items : List (RecordInput × Oracle × Nat)) (now : Nat) (k : String) :
    sentCount (runBatch cfg w items now).1.ledger.history k ≤
      sentCount w.ledger.history k + 1 := by
  simp only [runBatch]
  apply runRecords_sent_le
  rw [show (cleanupOnBatchStart w.ledger cfg.retentionDays cfg.rerunWindowHours
    cfg.unknownSentHoldSec now).history = w.ledger.history from rfl]
  simp

theorem runBatches_phi (steps : List (BatchConfig × List (RecordInput × Oracle × Nat)
    × Nat)) (w : World)
    (hphi : ∀ k, phi w.ledger k ≤ deliveryCount w.deliveries k) :
    ∀ k, phi (runBatches w steps).ledger k ≤
      deliveryCount (runBatches w steps).deliveries k := by
  induction steps generalizing w with
  | nil => exact hphi
  | cons st rest ih =>
    rcases st with ⟨cfg, items, t⟩
    exact ih _ (fun k => runBatch_phi cfg w items t k (hphi k))

theorem runBatches_sub (steps : List (BatchConfig × List (RecordInput × Oracle × Nat)
    × Nat)) (w : World) (h : w.ledger.events.Sublist w.ledger.history) :
    (runBatches w steps).ledger.events.Sublist (runBatches w steps).ledger.history := by
  induction steps generalizing w with
  | nil => exact h
  | cons st rest ih =>
    rcases st with ⟨cfg, items, t⟩
    exact ih _ (runBatch_sub cfg w items t h)

/-- C1 (amended): from an empty ledger, across any sequence of batch
executions with any oracles, the SENT events remaining in the events table
for a request key never exceed that key's successful transport deliveries;
and one batch execution appends at most one SENT event per request key. The
per-run half of the original claim is refuted separately: one run id spans
several batch executions of a skill instance, and the `confirm` rerun
policy re-sends inside it without any override. -/
theorem C1_sent_bounded :
    (∀ steps rk,
      sentCount (runBatches emptyWorld steps).ledger.events rk ≤
        deliveryCount (runBatches emptyWorld steps).deliveries rk) ∧
    (∀ (cfg : BatchConfig) (w : World) (items : List (RecordInput × Oracle × Nat))
      (now : Nat) (rk : String),
      sentCount (runBatch cfg w items now).1.ledger.history rk ≤
        sentCount w.ledger.history rk + 1) := by
  constructor
  · intro steps rk
    have hphi := runBatches_phi steps emptyWorld (fun k => Nat.le_refl 0) rk
    have hsub := runBatches_sub steps emptyWorld (List.Sublist.refl [])
    have hev : sentCount (runBatches emptyWorld steps).ledger.events rk ≤
        sentCount (runBatches emptyWorld steps).ledger.history rk :=
      hsub.countP_le _
    unfold phi at hphi
    omega
  · intro cfg w items now rk
    exact runBatch_sent_le cfg w items now rk


theorem sentPreceded_append (seen l1 l2 : List Event) :
    sentPreceded seen (l1 ++ l2) =
      (sentPreceded seen l1 && sentPreceded (seen ++ l1) l2) := by
  induction l1 generalizing seen with
  | nil => simp [sentPreceded]
  | cons e es ih =>
    rw [List.cons_append]
    rw [show sentPreceded seen (e :: (es ++ l2)) =
      ((if decide (e.status = Status.sent) then backs seen e.requestKey else true) &&
        sentPreceded (seen ++ [e]) (es ++ l2)) from rfl]
    rw [ih]
    rw [show sentPreceded seen (e :: es) =
      ((if decide (e.status = Status.sent) then backs seen e.requestKey else true) &&
        sentPreceded (seen ++ [e]) es) from rfl]
    rw [Bool.and_assoc]
    rw [← List.append_cons]

theorem sentPrecededOk_append_one (h : List Event) (e : Event) :
    sentPrecededOk (h ++ [e]) =
      (sentPrecededOk h &&
        (if decide (e.status = Status.sent) then backs h e.requestKey else true)) := by
  unfold sentPrecededOk
  rw [sentPreceded_append]
  congr 1
  rw [show sentPreceded ([] ++ h) [e] =
    ((if decide (e.status = Status.sent) then backs ([] ++ h) e.requestKey else true) &&
      sentPreceded (([] ++ h) ++ [e]) []) from rfl]
  rw [show sentPreceded (([] ++ h) ++ [e]) [] = true from rfl]
  rw [Bool.and_true, List.nil_append]

theorem backs_mono {h : List Event} (l : List Event) {rk : String}
    (hb : backs h rk = true) : backs (h ++ l) rk = true := by
  unfold backs at hb ⊢
  rw [List.any_append, hb, Bool.true_or]

theorem backs_last {h : List Event} {e : Event} {rk : String}
    (hk : e.requestKey = rk)
    (hs : e.status = Status.inProgress ∨ e.status = Status.unknownSent) :
    backs (h ++ [e]) rk = true := by
  unfold backs
  rw [List.any_append]
  have : (e.requestKey == rk && (decide (e.status = Status.inProgress) ||
      decide (e.status = Status.unknownSent))) = true := by
    rcases hs with hs | hs <;> simp [hk, hs]
  simp [this]

theorem backed_insert_nonSent {st : Ledger} {e : Event}
    (he : e.status ≠ Status.sent) (h : LedgerBacked st) :
    LedgerBacked (insertEvent st e) := by
  obtain ⟨h1, h2⟩ := h
  constructor
  · show sentPrecededOk (st.history ++ [e]) = true
    rw [sentPrecededOk_append_one, h1, Bool.true_and]
    simp [he]
  · intro l hl hs
    exact backs_mono _ (h2 l hl hs)

theorem backed_markSkipped {st : Ledger} {rk v1k kv runId : String} {status : Status}
    {now : Nat} (hs : status ≠ Status.sent) (h : LedgerBacked st) :
    LedgerBacked (markSkipped st rk v1k kv runId status now) :=
  backed_insert_nonSent hs h

theorem reserveSend_snd_of_some (st : Ledger) (rk v1k kv runId mailKey recipientHash
    idemTok secVer subjNorm : String) (ttlSec now : Nat) (lock : Lock)
    (hf : findLockRow st rk = some lock) :
    (reserveSend st rk v1k kv runId mailKey recipientHash idemTok secVer subjNorm
      ttlSec now).2.acquired = false := by
  simp only [reserveSend, hf]
  split
  · split <;> rfl
  · split
    · split <;> rfl
    · rfl

theorem reserveSend_acquired {st : Ledger} {rk v1k kv runId mailKey recipientHash
    idemTok secVer subjNorm : String} {ttlSec now : Nat}
    (h : (reserveSend st rk v1k kv runId mailKey recipientHash idemTok secVer subjNorm
      ttlSec now).2.acquired = true) :
    (reserveSend st rk v1k kv runId mailKey recipientHash idemTok secVer subjNorm
      ttlSec now).1.history = st.history ++
      [{ createdAt := now, requestKey := rk, v1Key := v1k, keyVersion := kv,
         runId := runId, status := Status.inProgress, messageId := "",
         messageIdSource := "", sentAt := none }] := by
  cases hf : findLockRow st rk with
  | some lock =>
    rw [reserveSend_snd_of_some st rk v1k kv runId mailKey recipientHash idemTok secVer
      subjNorm ttlSec now lock hf] at h
    exact absurd h (by decide)
  | none =>
    simp only [reserveSend, hf, insertEvent]

theorem backed_reserveSend {st : Ledger} {rk v1k kv runId mailKey recipientHash
    idemTok secVer subjNorm : String} {ttlSec now : Nat} (h : LedgerBacked st) :
    LedgerBacked (reserveSend st rk v1k kv runId mailKey recipientHash idemTok secVer
      subjNorm ttlSec now).1 := by
  cases hf : findLockRow st rk with
  | some lock =>
    rw [reserveSend_fst_of_some st rk v1k kv runId mailKey recipientHash idemTok secVer
      subjNorm ttlSec now lock hf]
    exact h
  | none =>
    simp only [reserveSend, hf]
    obtain ⟨h1, h2⟩ := h
    constructor
    · show sentPrecededOk (st.history ++ [_]) = true
      rw [sentPrecededOk_append_one, h1, Bool.true_and]
      simp
    · intro l hl hs
      rcases List.mem_append.mp hl with hl | hl
      · exact backs_mono _ (h2 l hl hs)
      · rw [List.mem_singleton] at hl
        subst hl
        exact absurd hs (by simp)

theorem backed_heartbeat {st : Ledger} {rk : String} {t n : Nat}
    (h : LedgerBacked st) : LedgerBacked (heartbeat st rk t n) := by
  obtain ⟨h1, h2⟩ := h
  refine ⟨h1, ?_⟩
  intro l hl hs
  unfold heartbeat at hl
  dsimp only at hl
  rcases List.mem_map.mp hl with ⟨a, ha, rfl⟩
  by_cases hc : (a.requestKey == rk && decide (a.status = Status.inProgress)) = true
  · rw [if_pos hc] at hs ⊢
    exact h2 a ha hs
  · rw [if_neg hc] at hs ⊢
    exact h2 a ha hs

theorem backed_markSent {st : Ledger} {rk v1k kv runId msgId msgSrc : String}
    {ts : Nat} (hb : backs st.history rk = true) (h : LedgerBacked st) :
    LedgerBacked (markSent st rk v1k kv runId msgId msgSrc ts) := by
  obtain ⟨h1, h2⟩ := h
  constructor
  · show sentPrecededOk (st.history ++ [_]) = true
    rw [sentPrecededOk_append_one, h1, Bool.true_and]
    simpa using hb
  · intro l hl hs
    exact backs_mono _ (h2 l (List.mem_of_mem_filter hl) hs)

theorem backed_markFailed {st : Ledger} {rk v1k kv runId : String} {now : Nat}
    (h : LedgerBacked st) : LedgerBacked (markFailedPreSend st rk v1k kv runId now) := by
  obtain ⟨h1, h2⟩ := h
  constructor
  · show sentPrecededOk (st.history ++ [_]) = true
    rw [sentPrecededOk_append_one, h1, Bool.true_and]
    simp
  · intro l hl hs
    exact backs_mono _ (h2 l (List.mem_of_mem_filter hl) hs)

theorem backed_markUnknown {st : Ledger} {rk v1k kv runId mailKey recipientHash
    idemTok secVer subjNorm : String} {holdSec : Nat} {msgId msgSrc err : String}
    {now : Nat} (h : LedgerBacked st) :
    LedgerBacked (markUnknownSent st rk v1k kv runId mailKey recipientHash idemTok
      secVer subjNorm holdSec msgId msgSrc err now) := by
  obtain ⟨h1, h2⟩ := h
  constructor
  · show sentPrecededOk (st.history ++ [_]) = true
    rw [sentPrecededOk_append_one, h1, Bool.true_and]
    simp
  · intro l hl hs
    rcases List.mem_append.mp hl with hl | hl
    · exact backs_mono _ (h2 l (List.mem_of_mem_filter hl) hs)
    · rw [List.mem_singleton] at hl
      subst hl
      exact backs_last rfl (Or.inr rfl)

theorem backed_markReconciledSent {st : Ledger} {rk runId msgId msgSrc : String}
    {now : Nat} (h : LedgerBacked st) :
    LedgerBacked (markReconciledSent st rk runId msgId msgSrc now) := by
  unfold markReconciledSent
  cases hu : getUnknownLock st rk with
  | none => exact h
  | some lock =>
    apply backed_markSent _ h
    have hmem := List.mem_of_find?_eq_some hu
    have hp := List.find?_some hu
    simp only [Bool.and_eq_true, beq_iff_eq, decide_eq_true_eq] at hp
    rw [← hp.1]
    exact h.2 lock hmem hp.2

theorem backed_cleanup {st : Ledger} {a b c d : Nat} (h : LedgerBacked st) :
    LedgerBacked (cleanupOnBatchStart st a b c d) :=
  ⟨h.1, fun l hl hs => h.2 l (List.mem_of_mem_filter hl) hs⟩

theorem stageSend_backed {cfg : BatchConfig} {s : StepState} {r : RecordInput}
    {o : Oracle} {now : Nat} (h : LedgerBacked s.ledger) :
    LedgerBacked (stageSend cfg s r o now).ledger := by
  simp only [stageSend]
  split
  · exact backed_markSkipped (by decide) (backed_reserveSend h)
  · rename_i hacq
    have hacq2 : (reserveSend s.ledger r.requestKey r.v1Key cfg.dedupeKeyVersion
        cfg.runId r.mailKey r.recipientHash r.idempotencyToken
        cfg.idempotencySecretVersion cfg.subjectNorm cfg.inProgressTtlSec
        now).2.acquired = true := by
      simpa using hacq
    have hb : backs (reserveSend s.ledger r.requestKey r.v1Key cfg.dedupeKeyVersion
        cfg.runId r.mailKey r.recipientHash r.idempotencyToken
        cfg.idempotencySecretVersion cfg.subjectNorm cfg.inProgressTtlSec
        now).1.history r.requestKey = true := by
      rw [reserveSend_acquired hacq2]
      exact backs_last rfl (Or.inl rfl)
    split
    · split
      · exact backed_markSent hb (backed_heartbeat (backed_reserveSend h))
      · exact backed_markUnknown (backed_heartbeat (backed_reserveSend h))
    · exact backed_markFailed (backed_heartbeat (backed_reserveSend h))

theorem stageRecent_backed {cfg : BatchConfig} {s : StepState} {r : RecordInput}
    {o : Oracle} {now : Nat} {allowed : Bool} (h : LedgerBacked s.ledger) :
    LedgerBacked (stageRecent cfg s r o now allowed).ledger := by
  simp only [stageRecent]
  repeat' split
  all_goals
    first
      | exact stageSend_backed h
      | exact backed_markSkipped (by decide) h

theorem processRecord_backed {cfg : BatchConfig} {s : StepState} {r : RecordInput}
    {o : Oracle} {now : Nat} (h : LedgerBacked s.ledger) :
    LedgerBacked (processRecord cfg s r o now).ledger := by
  simp only [processRecord]
  split
  · exact backed_markSkipped (by decide) h
  · split
    · split
      · exact backed_markSkipped (by decide) (backed_markReconciledSent h)
      · exact backed_markSkipped (by decide) h
    · exact stageRecent_backed h

theorem runRecords_backed (cfg : BatchConfig)
    (items : List (RecordInput × Oracle × Nat)) (s : StepState)
    (h : LedgerBacked s.ledger) : LedgerBacked (runRecords cfg s items).ledger := by
  induction items generalizing s with
  | nil => exact h
  | cons it rest ih =>
    rcases it with ⟨r, o, t⟩
    exact ih (processRecord cfg s r o t) (processRecord_backed h)

theorem runBatches_backed (steps : List (BatchConfig ×
    List (RecordInput × Oracle × Nat) × Nat)) (w : World)
    (h : LedgerBacked w.ledger) : LedgerBacked (runBatches w steps).ledger := by
  induction steps generalizing w with
  | nil => exact h
  | cons st rest ih =>
    rcases st with ⟨cfg, items, t⟩
    exact ih _ (by
      simp only [runBatch]
      exact runRecords_backed cfg items _ (backed_cleanup h))

/-- C5 (amended): in every ledger history produced by orchestrator batch
executions from an empty ledger, every SENT event is preceded — in
insertion order, over the full never-pruned history — by an IN_PROGRESS or
UNKNOWN_SENT event for the same request key. The legacy `append_entry`
path, refuted separately, is the only SendLedger operation violating
this. -/
theorem C5_sent_preceded (steps : List (BatchConfig ×
    List (RecordInput × Oracle × Nat) × Nat)) :
    sentPrecededOk (runBatches emptyWorld steps).ledger.history = true :=
  (runBatches_backed steps emptyWorld
    ⟨rfl, fun l hl _ => absurd hl (List.not_mem_nil l)⟩).1

end SendKernel
